import Mathlib

/-!
Shallow embedding of the GEPA (Genetic-Pareto) tool-description optimizer
(`src/lib/llm.ts`, `src/lib/evaluator.ts`, `src/lib/mutator.ts`,
`src/lib/pareto.ts`, `src/lib/archive.ts`, `src/lib/subsample.ts` and the
`runGEPA` scheduler) together with proofs about the embedded program.

Modelling conventions:
* JavaScript numbers are modelled as `Option ℚ`: `some q` is an ordinary
  finite value, `none` is `NaN`.  In this code base a division can only hit
  a zero divisor with a zero dividend (`0/0 = NaN`); infinities never arise,
  so `Option ℚ` is adequate.  All comparisons follow IEEE semantics on `NaN`
  (every comparison with `NaN` is false).
* JavaScript `Map` and `Set` (which iterate in insertion order) are modelled
  as insertion-ordered association lists, with `mapGet`/`mapSet`/`setAdd`/
  `setDelete` mirroring `Map.get`/`Map.set`/`Set.add`/`Set.delete`.
* External nondeterminism (the LLM gateway, `Math.random`, `crypto.randomUUID`,
  `Date.now`) is supplied through explicit oracle parameters; theorems
  quantify over the oracles.
* Progress events are modelled by returning the list of emitted events
  (the source emits them through an `onProgress` callback).
-/

/-- JavaScript relational `<` on numbers: any comparison with `NaN` is false. -/
def jsLt : Option ℚ → Option ℚ → Bool
  | some a, some b => decide (a < b)
  | _, _ => false

/-- JavaScript relational `>=` on numbers: any comparison with `NaN` is false. -/
def jsGe : Option ℚ → Option ℚ → Bool
  | some a, some b => decide (b ≤ a)
  | _, _ => false

/-- JavaScript subtraction; `NaN` is absorbing. -/
def jsSub : Option ℚ → Option ℚ → Option ℚ
  | some a, some b => some (a - b)
  | _, _ => none

/-- JavaScript addition; `NaN` is absorbing. -/
def jsAdd : Option ℚ → Option ℚ → Option ℚ
  | some a, some b => some (a + b)
  | _, _ => none

/-- JavaScript multiplication; `NaN` is absorbing. -/
def jsMul : Option ℚ → Option ℚ → Option ℚ
  | some a, some b => some (a * b)
  | _, _ => none

/-- JavaScript division.  In this development a zero divisor is only ever
reached with a zero dividend, i.e. as `0/0 = NaN`; infinities are not
modelled. -/
def jsDiv : Option ℚ → Option ℚ → Option ℚ
  | some a, some b => if b = 0 then none else some (a / b)
  | _, _ => none

/-- Model of `Math.max(a, b)`; `NaN` is absorbing. -/
def jsMax2 : Option ℚ → Option ℚ → Option ℚ
  | some a, some b => some (max a b)
  | _, _ => none

/-- Model of `Math.max(...xs)` over a nonempty spread (the empty case, `-Infinity`,
never arises at the call sites: the archive always holds the baseline). -/
def jsMaxList : List (Option ℚ) → Option ℚ
  | [] => none
  | x :: xs => xs.foldl jsMax2 x

/-- Model of `Map.get`: first binding of the key in an insertion-ordered assoc list. -/
def mapGet {α : Type} (m : List (String × α)) (k : String) : Option α :=
  (m.find? (fun p => p.1 = k)).map (fun p => p.2)

/-- Model of `Map.set`: replace the binding if the key is present, else append. -/
def mapSet {α : Type} (m : List (String × α)) (k : String) (v : α) :
    List (String × α) :=
  if m.any (fun p => p.1 = k) then
    m.map (fun p => if p.1 = k then (k, v) else p)
  else
    m ++ [(k, v)]

/-- Model of `Set.add`: append the element unless it is already present. -/
def setAdd (s : List String) (x : String) : List String :=
  if x ∈ s then s else s ++ [x]

/-- Model of `Set.delete`: remove the element. -/
def setDelete (s : List String) (x : String) : List String :=
  s.filter (fun y => y ≠ x)

/-! ### Data model (`src/types.ts`) -/

/-- Type `Tool` from `src/types.ts`; `inputSchema` is opaque JSON, kept as an
uninterpreted string. -/
structure Tool where
  id : String
  name : String
  description : String
  inputSchema : String
  serverId : String
  deriving Repr, DecidableEq

/-- Type `TestCase` from `src/types.ts`. -/
structure TestCase where
  id : String
  toolId : String
  query : String
  expectedTool : String
  userCreated : Bool
  deriving Repr, DecidableEq

/-- Type `Candidate` from `src/types.ts`. -/
structure Candidate where
  id : String
  tools : List Tool
  deriving Repr, DecidableEq

/-- Type `EvalResult` from `src/types.ts` (`selectedTool : string | null`). -/
structure EvalResult where
  testCaseId : String
  selectedTool : Option String
  expectedTool : String
  correct : Bool
  deriving Repr, DecidableEq

/-- Type `EvaluatedCandidate = Candidate & {accuracy, avgDescriptionLength,
evaluations}`; the two numeric fields are JavaScript numbers. -/
structure EvaluatedCandidate extends Candidate where
  accuracy : Option ℚ
  avgDescriptionLength : Option ℚ
  evaluations : List EvalResult
  deriving Repr, DecidableEq

/-! ### LLM gateway (`src/lib/llm.ts`) -/

/-- Outcome of one `generateText` call with tools: either a response whose
first tool call (if any) carries `toolName`, or a thrown provider error. -/
inductive GatewayResult where
  | ok (toolName : Option String)
  | error
  deriving Repr, DecidableEq

/-- Model of `evaluateWithTools` (`src/lib/llm.ts`): returns the first tool call's
name, `null` when the model produced no tool call (`toolCall?.toolName ||
null`, so an empty name is also `null`), and `null` on a caught provider
error. -/
def evaluateWithTools (gateway : String → List Tool → GatewayResult)
    (query : String) (tools : List Tool) : Option String :=
  match gateway query tools with
  | .ok toolName =>
      match toolName with
      | some name => if name = "" then none else some name
      | none => none
  | .error => none

/-! ### Progress events (`src/types.ts`, `ProgressEvent`)

Only the events actually emitted by the modelled code paths are included.
The human-readable rejection-reason template strings (built in the source
with `toFixed` percent formatting) are abstracted into a small inductive
carrying the numbers that the source interpolates; the decimal rendering is
presentation only. -/

/-- Reason attached to `offspring_rejected` / `candidate_done` on the
rejection path of the scheduler. -/
inductive RejectReason where
  | belowMinAccuracy (subsampleScore : Option ℚ) (threshold : ℚ)
  | lowerAccuracy (subsampleScore parentSubsampleScore : Option ℚ)
  deriving Repr, DecidableEq

/-- Progress events emitted by the evaluator, the mutator and the GEPA
scheduler (`src/types.ts`). -/
inductive ProgressEvent where
  | evaluation (candidateId : String) (testCase : String) (correct : Bool)
      (selected : Option String) (expected : String)
  | candidate_done (candidateId : String) (generation : ℕ)
      (toolDescriptions : List (String × String)) (accuracy : Option ℚ)
      (avgLength : Option ℚ) (isPareto : Bool) (status : String)
      (rejectionReason : Option RejectReason) (parentId : Option String)
  | archive_update (archiveSize totalEvaluations acceptedCount rejectedCount : ℕ)
  | iteration_start (iteration totalEvaluations : ℕ)
  | parent_selected (candidateId : String) (iteration : ℕ)
      (globalScore : Option ℚ)
  | mutation_start (candidateId : String)
  | reflection_start (candidateId : String) (tool : String)
      (failureQuery : String) (failureSelected : Option String)
      (failureExpected : String)
  | reflection_done (candidateId : String) (tool : String)
      (oldDesc newDesc : String)
  | candidate_start (candidateId : String) (iteration : ℕ)
  | subsample_eval (candidateId : String) (iteration : ℕ)
      (subsampleScore parentSubsampleScore : Option ℚ) (subsampleSize : ℕ)
  | offspring_rejected (candidateId : String) (reason : RejectReason)
      (iteration : ℕ)
  | offspring_accepted (candidateId : String)
      (accuracy avgLength : Option ℚ) (archiveIndex : ℕ)
      (parentId : String) (iteration : ℕ)
  | iteration_done (iteration totalEvaluations archiveSize : ℕ)
  | optimization_complete (runId : String)
      (archiveSize totalEvaluations acceptedCount rejectedCount : ℕ)
  deriving Repr, DecidableEq

/-! ### Evaluator (`src/lib/evaluator.ts`) -/

/-- Model of `evaluateTestCase`: one tool-selection call;
`correct = (selectedTool === testCase.expectedTool)`. -/
def evaluateTestCase (gateway : String → List Tool → GatewayResult)
    (tools : List Tool) (testCase : TestCase) : EvalResult :=
  let selectedTool := evaluateWithTools gateway testCase.query tools
  { testCaseId := testCase.id
    selectedTool := selectedTool
    expectedTool := testCase.expectedTool
    correct := selectedTool = some testCase.expectedTool }

/-- Model of `evaluateCandidate` (`src/lib/evaluator.ts`): evaluate every test case,
compute `accuracy = #correct / #evaluations` and `avgDescriptionLength =
Σ len(description) / #tools` (both `NaN` via `0/0` on empty input), and
return the evaluated candidate together with the emitted `evaluation`
events. -/
def evaluateCandidate (gateway : String → List Tool → GatewayResult)
    (candidate : Candidate) (testCases : List TestCase) :
    EvaluatedCandidate × List ProgressEvent :=
  let evaluations := testCases.map (evaluateTestCase gateway candidate.tools)
  let events := testCases.map (fun tc =>
    let r := evaluateTestCase gateway candidate.tools tc
    ProgressEvent.evaluation candidate.id tc.query r.correct r.selectedTool
      tc.expectedTool)
  let accuracy := jsDiv (some ((evaluations.filter (fun e => e.correct)).length : ℚ))
    (some (evaluations.length : ℚ))
  let avgDescriptionLength :=
    jsDiv (some ((candidate.tools.map (fun t => (t.description.length : ℚ))).sum))
      (some (candidate.tools.length : ℚ))
  ({ toCandidate := candidate
     accuracy := accuracy
     avgDescriptionLength := avgDescriptionLength
     evaluations := evaluations }, events)

/-! ### Reflective mutator (`src/lib/mutator.ts`) -/

/-- Reflection prompt assembled by `mutateViaReflection`
(`failure.selectedTool || "none"`: an empty or null selection renders as
the word none). -/
def buildReflectionPrompt (tool : Tool) (allTools : List Tool)
    (testCase : TestCase) (failure : EvalResult) : String :=
  let otherTools := String.intercalate "\n"
    ((allTools.filter (fun t => t.name ≠ tool.name)).map
      (fun t => "- " ++ t.name ++ ": \"" ++ t.description ++ "\""))
  let selectedText :=
    match failure.selectedTool with
    | some s => if s = "" then "none" else s
    | none => "none"
  "You are optimizing tool descriptions for an LLM function calling system.\n\n"
    ++ "Current tool:\nName: " ++ tool.name ++ "\nDescription: \""
    ++ tool.description ++ "\"\n\n"
    ++ "Other available tools:\n" ++ otherTools ++ "\n\n"
    ++ "This description caused a failure:\n- User query: \""
    ++ testCase.query ++ "\"\n- Expected tool: " ++ failure.expectedTool
    ++ "\n- LLM selected: " ++ selectedText ++ "\n\n"
    ++ "Rewrite ONLY the description for \"" ++ tool.name
    ++ "\" to fix this issue.\n"
    ++ "Requirements:\n- Keep it concise (under 200 characters)\n"
    ++ "- Make the use case more specific\n"
    ++ "- Distinguish it clearly from other tools\n"
    ++ "- Focus on WHEN to use this tool\n\n"
    ++ "Return ONLY the new description, no explanation or quotes."

/-- Result of one mutation: the offspring candidate, the events emitted,
and the prompts of the `reflect` LLM calls that were issued (used to state
which paths call the LLM). -/
structure MutationOutcome where
  offspring : Candidate
  events : List ProgressEvent
  llmPrompts : List String
  deriving Repr, DecidableEq

/-- Model of `mutateViaReflection` (`src/lib/mutator.ts`).  Oracles:
`reflectOracle` is the `reflect` LLM call (it may throw), `freshId` stands
for `crypto.randomUUID()`, and `pickIdx` resolves
`Math.floor(Math.random() * failures.length)` (reduced modulo the number of
failures).  A parent with no failures, a missing tool, or a missing test
case yields a no-op offspring (parent tools, fresh id) without any LLM
call; a provider error yields a no-op offspring after the call. -/
def mutateViaReflection (reflectOracle : String → Except Unit String)
    (freshId : String) (pickIdx : ℕ) (candidate : EvaluatedCandidate)
    (testCases : List TestCase) : MutationOutcome :=
  let failures := candidate.evaluations.filter (fun e => !e.correct)
  if failures.length = 0 then
    { offspring := { id := freshId, tools := candidate.tools }
      events := [], llmPrompts := [] }
  else
    match failures.get? (pickIdx % failures.length) with
    | none =>
        { offspring := { id := freshId, tools := candidate.tools }
          events := [], llmPrompts := [] }
    | some failure =>
      match candidate.tools.find? (fun t => t.name = failure.expectedTool) with
      | none =>
          { offspring := { id := freshId, tools := candidate.tools }
            events := [], llmPrompts := [] }
      | some tool =>
        match testCases.find? (fun tc => tc.id = failure.testCaseId) with
        | none =>
            { offspring := { id := freshId, tools := candidate.tools }
              events := [], llmPrompts := [] }
        | some testCase =>
          let startEvent := ProgressEvent.reflection_start candidate.id
            tool.name testCase.query failure.selectedTool failure.expectedTool
          let prompt := buildReflectionPrompt tool candidate.tools testCase failure
          match reflectOracle prompt with
          | .ok newDescription =>
              { offspring :=
                  { id := freshId
                    tools := candidate.tools.map (fun t =>
                      if t.name = tool.name then
                        { t with description := newDescription.trim }
                      else t) }
                events := [startEvent,
                  ProgressEvent.reflection_done candidate.id tool.name
                    tool.description newDescription.trim]
                llmPrompts := [prompt] }
          | .error _ =>
              { offspring := { id := freshId, tools := candidate.tools }
                events := [startEvent]
                llmPrompts := [prompt] }

/-! ### Archive (`src/lib/archive.ts`) -/

/-- Archive structure: unbounded storage of all evaluated candidates,
with creation timestamps and parent lineage. -/
structure Archive where
  candidates : List (String × EvaluatedCandidate)
  createdAt : List (String × ℕ)
  parentOf : List (String × String)
  deriving Repr, DecidableEq

/-- Model of `createArchive`. -/
def createArchive : Archive :=
  { candidates := [], createdAt := [], parentOf := [] }

/-- Model of `addToArchive`; `now` stands for `Date.now()`. -/
def addToArchive (archive : Archive) (candidate : EvaluatedCandidate)
    (now : ℕ) (parentId : Option String) : Archive :=
  { candidates := mapSet archive.candidates candidate.id candidate
    createdAt := mapSet archive.createdAt candidate.id now
    parentOf :=
      match parentId with
      | some pid => mapSet archive.parentOf candidate.id pid
      | none => archive.parentOf }

/-- Model of `getArchiveSize`. -/
def getArchiveSize (archive : Archive) : ℕ :=
  archive.candidates.length

/-- Model of `getArchiveCandidates` (`Array.from(candidates.values())`). -/
def getArchiveCandidates (archive : Archive) : List EvaluatedCandidate :=
  archive.candidates.map (fun p => p.2)

/-- Model of `getCandidateFromArchive`. -/
def getCandidateFromArchive (archive : Archive) (candidateId : String) :
    Option EvaluatedCandidate :=
  mapGet archive.candidates candidateId

/-! ### Per-task Pareto index (`src/lib/pareto.ts`) -/

/-- Per-task Pareto front structure: per test case the currently
non-dominated candidate ids, plus the dominance-count map. -/
structure PerTaskPareto where
  taskFronts : List (String × List String)
  dominanceCount : List (String × ℤ)
  deriving Repr, DecidableEq

/-- Model of `createPerTaskPareto`: one empty front per test case. -/
def createPerTaskPareto (testCases : List TestCase) : PerTaskPareto :=
  { taskFronts := testCases.foldl (fun m tc => mapSet m tc.id []) []
    dominanceCount := [] }

/-- Model of `dominatesOnTask`: candidate A dominates candidate B on one
task iff A is correct and B is not, or both are correct and A's
candidate-level average description length is strictly smaller. -/
def dominatesOnTask (candidateA candidateB : EvaluatedCandidate)
    (evaluationA evaluationB : EvalResult) : Bool :=
  if evaluationA.correct && !evaluationB.correct then true
  else if !evaluationA.correct then false
  else jsLt candidateA.avgDescriptionLength candidateB.avgDescriptionLength

/-- Inner loop of `updatePerTaskPareto` over the snapshot
`Array.from(front)`: collect the members the new candidate dominates into
`toRemove`, and stop with `isDominated` at the first member that dominates
the new candidate (members the archive cannot resolve, or without an
evaluation on this task, are skipped). -/
def frontScan (archive : Archive) (newCandidate : EvaluatedCandidate)
    (evaluation : EvalResult) : List String → List String × Bool
  | [] => ([], false)
  | existingId :: rest =>
    match mapGet archive.candidates existingId with
    | none => frontScan archive newCandidate evaluation rest
    | some existing =>
      match existing.evaluations.find?
          (fun e => e.testCaseId = evaluation.testCaseId) with
      | none => frontScan archive newCandidate evaluation rest
      | some existingEvaluation =>
        if dominatesOnTask newCandidate existing evaluation existingEvaluation then
          let r := frontScan archive newCandidate evaluation rest
          (existingId :: r.1, r.2)
        else if dominatesOnTask existing newCandidate existingEvaluation evaluation then
          ([], true)
        else frontScan archive newCandidate evaluation rest

/-- Body of `updatePerTaskPareto`'s `for` loop for one evaluation of the
new candidate: skip the task if dominated, otherwise remove the dominated
members (decrementing their counts), insert the new candidate and increment
its count. -/
def updatePerTaskParetoTask (archive : Archive)
    (newCandidate : EvaluatedCandidate) (pareto : PerTaskPareto)
    (evaluation : EvalResult) : PerTaskPareto :=
  match mapGet pareto.taskFronts evaluation.testCaseId with
  | none => pareto
  | some front =>
    let scan := frontScan archive newCandidate evaluation front
    if scan.2 then pareto
    else
      let front1 := scan.1.foldl setDelete front
      let counts1 := scan.1.foldl
        (fun m cid => mapSet m cid (((mapGet m cid).getD 0) - 1))
        pareto.dominanceCount
      let front2 := setAdd front1 newCandidate.id
      let counts2 := mapSet counts1 newCandidate.id
        (((mapGet counts1 newCandidate.id).getD 0) + 1)
      { taskFronts := mapSet pareto.taskFronts evaluation.testCaseId front2
        dominanceCount := counts2 }

/-- Model of `updatePerTaskPareto`: process every evaluation of the new
candidate in order. -/
def updatePerTaskPareto (pareto : PerTaskPareto)
    (newCandidate : EvaluatedCandidate) (archive : Archive) : PerTaskPareto :=
  newCandidate.evaluations.foldl
    (updatePerTaskParetoTask archive newCandidate) pareto

/-- Model of `calculateMaxLength` (`src/lib/pareto.ts`): running maximum
starting from 0; a `NaN` average never wins the `>` comparison and is
skipped. -/
def calculateMaxLength (archive : Archive) : ℚ :=
  (getArchiveCandidates archive).foldl
    (fun maxLength c =>
      match c.avgDescriptionLength with
      | some v => if maxLength < v then v else maxLength
      | none => maxLength) 0

/-- JavaScript `Math.min(a, b)`; `NaN` is absorbing. -/
def jsMin2 : Option ℚ → Option ℚ → Option ℚ
  | some a, some b => some (min a b)
  | _, _ => none

/-- Model of `calculateConcisenessScore`: `1 - avgLength / maxLength`
clamped to `[0, 1]` (`NaN` propagates through the clamp), and 1.0 when
`maxLength` is zero. -/
def calculateConcisenessScore (avgLength : Option ℚ) (maxLength : ℚ) :
    Option ℚ :=
  if maxLength = 0 then some 1
  else jsMax2 (some 0)
    (jsMin2 (some 1) (jsSub (some 1) (jsDiv avgLength (some maxLength))))

/-- Model of `calculateGlobalScore`:
`accuracy · accuracyWeight + conciseness · (1 - accuracyWeight)`. -/
def calculateGlobalScore (candidate : EvaluatedCandidate) (maxLength : ℚ)
    (accuracyWeight : ℚ) : Option ℚ :=
  jsAdd (jsMul candidate.accuracy (some accuracyWeight))
    (jsMul (calculateConcisenessScore candidate.avgDescriptionLength maxLength)
      (some (1 - accuracyWeight)))

/-- Model of `selectParentWeightedByGlobalScore`.  The source samples one
pool element with probability proportional to `exp(score / temperature)`
via `Math.random` and a cumulative scan; every such weight is strictly
positive, so any pool element can be drawn.  The draw is therefore supplied
by the oracle index `pick` (reduced modulo the pool size); the transcendental
weights themselves play no further role.  Structure kept from the source:
empty archive yields `null`; candidates below `minAccuracy` are filtered
out unless that filter would empty the pool. -/
def selectParentWeightedByGlobalScore (archive : Archive)
    (accuracyWeight temperature minAccuracy : ℚ) (pick : ℕ) :
    Option EvaluatedCandidate :=
  let candidates := getArchiveCandidates archive
  if candidates.length = 0 then none
  else
    let qualifiedCandidates :=
      candidates.filter (fun c => jsGe c.accuracy (some minAccuracy))
    let pool :=
      if qualifiedCandidates.length > 0 then qualifiedCandidates
      else candidates
    let maxLength := calculateMaxLength archive
    let candidatesWithScores :=
      pool.map (fun c => (c, calculateGlobalScore c maxLength accuracyWeight))
    let _temperature := temperature
    (candidatesWithScores.get? (pick % candidatesWithScores.length)).map
      (fun p => p.1)

/-! ### Subsample filtering (`src/lib/subsample.ts`) -/

/-- Model of `sampleTestCases`: shuffle (the random comparator sort is the
oracle `shuffle`) and take the first `min(subsampleSize, |testCases|)`. -/
def sampleTestCases (shuffle : List TestCase → List TestCase)
    (testCases : List TestCase) (subsampleSize : ℕ) : List TestCase :=
  (shuffle testCases).take (min subsampleSize testCases.length)

/-- Model of `evaluateOnSubsample`: per-case 0/1 scores, averaged
(`NaN` on an empty subsample). -/
def evaluateOnSubsample (gateway : String → List Tool → GatewayResult)
    (candidate : Candidate) (subsample : List TestCase) : Option ℚ :=
  let results := subsample.map (fun tc =>
    if evaluateWithTools gateway tc.query candidate.tools
        = some tc.expectedTool then (1 : ℚ) else 0)
  jsDiv (some results.sum) (some (results.length : ℚ))

/-- Model of `getParentSubsampleScore`: the parent's cached accuracy on the
drawn subsample's test cases, 0 when none of the parent's evaluations match. -/
def getParentSubsampleScore (parent : EvaluatedCandidate)
    (subsample : List TestCase) : Option ℚ :=
  let subsampleIds := subsample.map (fun tc => tc.id)
  let relevantEvaluations :=
    parent.evaluations.filter (fun e => e.testCaseId ∈ subsampleIds)
  if relevantEvaluations.length = 0 then some 0
  else
    some (((relevantEvaluations.filter (fun e => e.correct)).length : ℚ)
      / (relevantEvaluations.length : ℚ))

/-! ### GEPA scheduler (`runGEPA`, `src/lib/archive.ts` scheduler section) -/

/-- Model of the `GEPAConfig` record from `src/types.ts` (the `onProgress`
callback is replaced by returning the event list; model names are opaque). -/
structure GEPAConfig where
  runId : String
  maxEvaluations : ℕ
  subsampleSize : ℕ
  testsPerTool : ℕ
  evaluationModel : String
  generationModel : String
  maxConcurrentEvaluations : ℕ
  tools : List Tool
  testCases : List TestCase
  minAccuracy : Option ℚ
  accuracyWeight : Option ℚ
  selectionTemperature : Option ℚ

/-- Oracles standing for the external nondeterminism of one run:
the LLM gateway per evaluation phase, the per-iteration subsample shuffle,
the weighted parent draw, the mutator's LLM call, failure pick and fresh
ids, and the `Date.now` clock. -/
structure GEPAOracles where
  baselineId : String
  gatewayBaseline : String → List Tool → GatewayResult
  gatewaySub : ℕ → String → List Tool → GatewayResult
  gatewayFull : ℕ → String → List Tool → GatewayResult
  shuffle : ℕ → List TestCase → List TestCase
  parentPick : ℕ → ℕ
  reflectOracle : ℕ → String → Except Unit String
  mutPick : ℕ → ℕ
  offspringId : ℕ → String
  clock : ℕ → ℕ

/-- Mutable scheduler state of `runGEPA`. -/
structure GEPAState where
  archive : Archive
  pareto : PerTaskPareto
  totalEvaluations : ℕ
  acceptedCount : ℕ
  rejectedCount : ℕ
  iteration : ℕ
  deriving Repr, DecidableEq

/-- Acceptance check of the scheduler (step 4 of the loop):
reject iff `subsampleScore < parentSubsampleScore - 0.001`
(`accuracyWorse`) or `subsampleScore < minAccuracyThreshold`
(`belowMinAccuracy`). -/
def gepaRejects (subsampleScore parentSubsampleScore : Option ℚ)
    (minAccuracyThreshold : ℚ) : Bool :=
  let accuracyWorse :=
    jsLt subsampleScore (jsSub parentSubsampleScore (some (1 / 1000)))
  let belowMinAccuracy := jsLt subsampleScore (some minAccuracyThreshold)
  accuracyWorse || belowMinAccuracy

/-- Model of `Object.fromEntries(tools.map(t => [t.name, t.description]))`
(and of the equivalent assignment loop in the accepted branch). -/
def toolDescriptionsOf (tools : List Tool) : List (String × String) :=
  tools.foldl (fun m t => mapSet m t.name t.description) []

/-- One iteration of the GEPA main loop.  Returns the updated state, the
events emitted during the iteration, and `false` exactly when the loop
`break`s (no parent available). -/
def gepaIter (config : GEPAConfig) (oracles : GEPAOracles)
    (state : GEPAState) : GEPAState × List ProgressEvent × Bool :=
  let iteration := state.iteration + 1
  let startEvents : List ProgressEvent :=
    [ProgressEvent.iteration_start iteration state.totalEvaluations]
  -- 1. Parent selection (temperature clamped to at least 0.1)
  let selectionTemp := max (1 / 10 : ℚ) ((config.selectionTemperature).getD 1)
  let accuracyWeight := (config.accuracyWeight).getD (1 / 2)
  let minAccuracy := (config.minAccuracy).getD 0
  match selectParentWeightedByGlobalScore state.archive accuracyWeight
      selectionTemp minAccuracy (oracles.parentPick iteration) with
  | none => ({ state with iteration := iteration }, startEvents, false)
  | some parent =>
    let maxLength := jsMaxList
      ((getArchiveCandidates state.archive).map
        (fun c => c.avgDescriptionLength))
    let concisenessScore :=
      jsSub (some 1) (jsDiv parent.avgDescriptionLength maxLength)
    let globalScore :=
      jsAdd (jsMul parent.accuracy (some accuracyWeight))
        (jsMul concisenessScore (some (1 - accuracyWeight)))
    let events1 := startEvents ++
      [ProgressEvent.parent_selected parent.id iteration globalScore,
       ProgressEvent.mutation_start parent.id]
    -- 2. Mutation
    let mutation := mutateViaReflection (oracles.reflectOracle iteration)
      (oracles.offspringId iteration) (oracles.mutPick iteration) parent
      config.testCases
    let offspring := mutation.offspring
    let events2 := events1 ++ mutation.events
    -- 3. Subsample evaluation (cheap filter)
    let subsample := sampleTestCases (oracles.shuffle iteration)
      config.testCases config.subsampleSize
    let subsampleScore := evaluateOnSubsample (oracles.gatewaySub iteration)
      offspring subsample
    let parentSubsampleScore := getParentSubsampleScore parent subsample
    let totalEvaluations1 := state.totalEvaluations + subsample.length
    let offspringAvgLength :=
      jsDiv (some ((offspring.tools.map
        (fun t => (t.description.length : ℚ))).sum))
        (some (offspring.tools.length : ℚ))
    let events3 := events2 ++
      [ProgressEvent.subsample_eval offspring.id iteration subsampleScore
        parentSubsampleScore subsample.length]
    -- 4. Acceptance check
    let minAccuracyThreshold := minAccuracy
    if gepaRejects subsampleScore parentSubsampleScore minAccuracyThreshold then
      let reason :=
        if jsLt subsampleScore (some minAccuracyThreshold) then
          RejectReason.belowMinAccuracy subsampleScore minAccuracyThreshold
        else
          RejectReason.lowerAccuracy subsampleScore parentSubsampleScore
      let events4 := events3 ++
        [ProgressEvent.candidate_done offspring.id iteration
          (toolDescriptionsOf offspring.tools) subsampleScore
          offspringAvgLength false "rejected" (some reason) (some parent.id),
         ProgressEvent.offspring_rejected offspring.id reason iteration,
         ProgressEvent.iteration_done iteration totalEvaluations1
           (getArchiveSize state.archive)]
      ({ state with
          iteration := iteration
          totalEvaluations := totalEvaluations1
          rejectedCount := state.rejectedCount + 1 }, events4, true)
    else
      -- 5. Full evaluation (accepted on subsample)
      let events5 := events3 ++
        [ProgressEvent.candidate_start offspring.id iteration]
      let fullEval := evaluateCandidate (oracles.gatewayFull iteration)
        offspring config.testCases
      let offspringEval := fullEval.1
      let totalEvaluations2 := totalEvaluations1 + config.testCases.length
      -- 6. Archive and Pareto updates
      let archive1 := addToArchive state.archive offspringEval
        (oracles.clock iteration) (some parent.id)
      let pareto1 := updatePerTaskPareto state.pareto offspringEval archive1
      let acceptedCount1 := state.acceptedCount + 1
      let events6 := events5 ++ fullEval.2 ++
        [ProgressEvent.candidate_done offspring.id iteration
          (toolDescriptionsOf offspringEval.tools) offspringEval.accuracy
          offspringEval.avgDescriptionLength true "accepted" none
          (some parent.id),
         ProgressEvent.offspring_accepted offspring.id offspringEval.accuracy
           offspringEval.avgDescriptionLength (getArchiveSize archive1)
           parent.id iteration,
         ProgressEvent.archive_update (getArchiveSize archive1)
           totalEvaluations2 acceptedCount1 state.rejectedCount,
         ProgressEvent.iteration_done iteration totalEvaluations2
           (getArchiveSize archive1)]
      ({ archive := archive1
         pareto := pareto1
         totalEvaluations := totalEvaluations2
         acceptedCount := acceptedCount1
         rejectedCount := state.rejectedCount
         iteration := iteration }, events6, true)

/-- The `while totalEvaluations < maxEvaluations` loop, with explicit fuel
(each iteration strictly increases the budget whenever the subsample is
nonempty, so `maxEvaluations` fuel always suffices; running out of fuel is
a model artifact reported through the `Bool` component, which is `true`
iff the loop exited through its guard or through `break`). -/
def gepaLoop (config : GEPAConfig) (oracles : GEPAOracles) :
    ℕ → GEPAState → GEPAState × List ProgressEvent × Bool
  | 0, state => (state, [], decide ¬(state.totalEvaluations < config.maxEvaluations))
  | fuel + 1, state =>
    if state.totalEvaluations < config.maxEvaluations then
      let step := gepaIter config oracles state
      if step.2.2 then
        let rest := gepaLoop config oracles fuel step.1
        (rest.1, step.2.1 ++ rest.2.1, rest.2.2)
      else
        (step.1, step.2.1, true)
    else (state, [], true)

/-- Model of `runGEPA` (`src/lib/archive.ts`): validate, evaluate the
baseline, archive it, run the main loop, and emit `optimization_complete`.
The first component is the list of all emitted events (empty when the
configuration is rejected before any work); the second carries the returned
archive and final state, or the thrown configuration error. -/
def runGEPA (config : GEPAConfig) (oracles : GEPAOracles) (fuel : ℕ) :
    List ProgressEvent × Except String (Archive × GEPAState) :=
  if config.testCases.length = 0 then
    ([], Except.error
      "GEPA requires test cases. Please generate test cases before starting optimization.")
  else
    let archive0 := createArchive
    let pareto0 := createPerTaskPareto config.testCases
    let original : Candidate := { id := oracles.baselineId, tools := config.tools }
    let baseline := evaluateCandidate oracles.gatewayBaseline original
      config.testCases
    let originalEval := baseline.1
    let archive1 := addToArchive archive0 originalEval (oracles.clock 0) none
    let pareto1 := updatePerTaskPareto pareto0 originalEval archive1
    let state0 : GEPAState :=
      { archive := archive1
        pareto := pareto1
        totalEvaluations := config.testCases.length
        acceptedCount := 1
        rejectedCount := 0
        iteration := 0 }
    let initEvents := baseline.2 ++
      [ProgressEvent.candidate_done original.id 0
        (toolDescriptionsOf original.tools) originalEval.accuracy
        originalEval.avgDescriptionLength true "accepted" none none,
       ProgressEvent.archive_update 1 state0.totalEvaluations 1 0]
    let looped := gepaLoop config oracles fuel state0
    let finalState := looped.1
    let finalEvents :=
      if looped.2.2 then
        looped.2.1 ++
          [ProgressEvent.optimization_complete config.runId
            (getArchiveSize finalState.archive) finalState.totalEvaluations
            finalState.acceptedCount finalState.rejectedCount]
      else looped.2.1
    (initEvents ++ finalEvents, Except.ok (finalState.archive, finalState))

/-! ### Derived observations used by the specification statements -/

/-- Subsample size carried by a `subsample_eval` event, if any. -/
def subsampleSizeOf : ProgressEvent → Option ℕ
  | ProgressEvent.subsample_eval _ _ _ _ k => some k
  | _ => none

/-- Total budget contribution recorded by `subsample_eval` events
(the scheduler adds `subsample.length` exactly when it emits one). -/
def subsampleBudget (events : List ProgressEvent) : ℕ :=
  (events.filterMap subsampleSizeOf).sum

/-- Recognizer for `offspring_accepted` events. -/
def isOffspringAccepted : ProgressEvent → Bool
  | ProgressEvent.offspring_accepted _ _ _ _ _ _ => true
  | _ => false

/-- Number of `offspring_accepted` events (the scheduler runs one full
evaluation exactly when it emits one). -/
def acceptedEvalCount (events : List ProgressEvent) : ℕ :=
  (events.filter isOffspringAccepted).length

/-- Statement that every accepted offspring in an event stream has a
recorded subsample score meeting the `minAccuracy` floor. -/
def acceptedMeetsFloor (minAccuracy : ℚ) (events : List ProgressEvent) : Prop :=
  ∀ c acc avg idx pid it,
    ProgressEvent.offspring_accepted c acc avg idx pid it ∈ events →
    ∃ it2 s ps k, ProgressEvent.subsample_eval c it2 s ps k ∈ events ∧
      jsLt s (some minAccuracy) = false

/-- Key list of the archive's candidate map. -/
def archiveKeys (archive : Archive) : List String :=
  archive.candidates.map Prod.fst

/-- The (first) cached evaluation of a candidate on a task, exactly the
`evaluations.find(e => e.testCaseId === t)` lookup of the source. -/
def evalOn (c : EvaluatedCandidate) (t : String) : Option EvalResult :=
  c.evaluations.find? (fun e => e.testCaseId = t)

/-- Dominance of one candidate over another on one task, through their
cached evaluations. -/
def DomOn (a b : EvaluatedCandidate) (t : String) : Prop :=
  ∃ ea eb, evalOn a t = some ea ∧ evalOn b t = some eb ∧
    dominatesOnTask a b ea eb = true

/-- One archive-then-Pareto insertion, in the order the scheduler performs
it (`addToArchive` first, `updatePerTaskPareto` against the grown archive;
timestamps and lineage do not influence the Pareto index). -/
def paretoFoldStep (state : Archive × PerTaskPareto)
    (c : EvaluatedCandidate) : Archive × PerTaskPareto :=
  let archive1 := addToArchive state.1 c 0 none
  (archive1, updatePerTaskPareto state.2 c archive1)

/-- Archive and Pareto index reached by inserting the given evaluated
candidates in order, starting from the empty structures for the given
test cases. -/
def paretoRun (testCases : List TestCase) (cs : List EvaluatedCandidate) :
    Archive × PerTaskPareto :=
  cs.foldl paretoFoldStep (createArchive, createPerTaskPareto testCases)

/-- Number of task fronts of the index that contain the candidate, counted
along the candidate's evaluations (the tasks its re-insertion would visit). -/
def reinsertBump (pareto : PerTaskPareto) (c : EvaluatedCandidate) : ℕ :=
  (c.evaluations.filter (fun e =>
    match mapGet pareto.taskFronts e.testCaseId with
    | some f => c.id ∈ f
    | none => false)).length

/-! ### Concrete fixtures for witnesses and counterexamples -/

/-- A one-tool inventory used by the concrete scenarios. -/
def toolWeather : Tool :=
  { id := "t1", name := "weather", description := "x"
    inputSchema := "obj", serverId := "s1" }

/-- A single test case expecting the weather tool. -/
def tcParis : TestCase :=
  { id := "tc1", toolId := "t1"
    query := "what is the temperature in Paris"
    expectedTool := "weather", userCreated := false }

/-- Gateway stub that always fails with a provider error. -/
def gatewayDown : String → List Tool → GatewayResult := fun _ _ => .error

/-- Gateway stub that always picks the weather tool. -/
def gatewayWeather : String → List Tool → GatewayResult :=
  fun _ _ => .ok (some "weather")

/-- Deterministic oracle bundle built around one gateway stub. -/
def mkOracles (g : String → List Tool → GatewayResult) : GEPAOracles :=
  { baselineId := "base"
    gatewayBaseline := g
    gatewaySub := fun _ => g
    gatewayFull := fun _ => g
    shuffle := fun _ l => l
    parentPick := fun _ => 0
    reflectOracle := fun _ _ => Except.error ()
    mutPick := fun _ => 0
    offspringId := fun i => String.mk (List.replicate (i + 1) 'x')
    clock := fun i => i }

/-- Small scheduler configuration over the weather fixture. -/
def mkConfig (tests : List TestCase) (maxEvals : ℕ) (minAcc : Option ℚ) :
    GEPAConfig :=
  { runId := "run1", maxEvaluations := maxEvals, subsampleSize := 5
    testsPerTool := 5, evaluationModel := "m", generationModel := "m"
    maxConcurrentEvaluations := 3, tools := [toolWeather]
    testCases := tests, minAccuracy := minAcc
    accuracyWeight := none, selectionTemperature := none }

/-- An evaluated candidate with a single correct evaluation (no failures). -/
def parentAllCorrect : EvaluatedCandidate :=
  { id := "p1", tools := [toolWeather]
    accuracy := some 1, avgDescriptionLength := some 1
    evaluations := [{ testCaseId := "tc1", selectedTool := some "weather"
                      expectedTool := "weather", correct := true }] }

/-- A correct cached evaluation on `tc1`, shared by the fixtures. -/
def evalCorrectTc1 : EvalResult :=
  { testCaseId := "tc1", selectedTool := some "weather"
    expectedTool := "weather", correct := true }

/-- A default state used only to project out of `Except` results. -/
def defaultGEPAState : GEPAState :=
  { archive := createArchive
    pareto := { taskFronts := [], dominanceCount := [] }
    totalEvaluations := 0, acceptedCount := 0, rejectedCount := 0
    iteration := 0 }

/-- Concrete run: one test case, budget 1 (no loop iteration), an
always-correct gateway, no minimum accuracy. -/
def runA : List ProgressEvent × Except String (Archive × GEPAState) :=
  runGEPA (mkConfig [tcParis] 1 none) (mkOracles gatewayWeather) 1

/-- Events of the concrete run `runA`. -/
def runAEvents : List ProgressEvent := runA.1

/-- Archive and final state of `runA`. -/
def runAResult : Archive × GEPAState :=
  (runA.2.toOption).getD (createArchive, defaultGEPAState)

/-- Final archive of `runA`. -/
def runAArchive : Archive := runAResult.1

/-- Final scheduler state of `runA`. -/
def runAState : GEPAState := runAResult.2

/-- Concrete run: one test case, budget 1, an always-failing gateway
(baseline accuracy 0) and `minAccuracy = 0.7`. -/
def runB : List ProgressEvent × Except String (Archive × GEPAState) :=
  runGEPA (mkConfig [tcParis] 1 (some (7 / 10))) (mkOracles gatewayDown) 1

/-- Final archive of `runB`. -/
def runBArchive : Archive :=
  ((runB.2.toOption).getD (createArchive, defaultGEPAState)).1

/-- Front produced by one task update when the front exists: unchanged if
the new candidate is dominated, otherwise the survivors plus the new
candidate. -/
def taskNewFront (archive : Archive) (newCandidate : EvaluatedCandidate)
    (evaluation : EvalResult) (front : List String) : List String :=
  let scan := frontScan archive newCandidate evaluation front
  if scan.2 then front
  else setAdd (scan.1.foldl setDelete front) newCandidate.id

/-- Every member of a task front is the id of a known candidate that has a
cached evaluation on that task. -/
def frontResolves (cs : List EvaluatedCandidate) (t : String)
    (f : List String) : Prop :=
  ∀ cid ∈ f, ∃ x ∈ cs, x.id = cid ∧ (evalOn x t).isSome = true

/-- No two members of a task front dominate each other on that task. -/
def frontNonDom (cs : List EvaluatedCandidate) (t : String)
    (f : List String) : Prop :=
  ∀ a ∈ f, ∀ b ∈ f, ∀ x ∈ cs, ∀ y ∈ cs,
    x.id = a → y.id = b → ¬ DomOn x y t

/-- Every candidate with an evaluation on a task either sits on that
task's front or is dominated there by a front member. -/
def coveredBy (cs : List EvaluatedCandidate) (pareto : PerTaskPareto)
    (x : EvaluatedCandidate) : Prop :=
  ∀ t f, mapGet pareto.taskFronts t = some f → (evalOn x t).isSome = true →
    x.id ∈ f ∨ ∃ d ∈ cs, d.id ∈ f ∧ DomOn d x t

/-- Inductive invariant of the archive/Pareto pair reached by a run of
insertions. -/
def ParetoInv (cs : List EvaluatedCandidate) (archive : Archive)
    (pareto : PerTaskPareto) : Prop :=
  ((pareto.taskFronts.map Prod.fst).Nodup) ∧
  (∀ x ∈ cs, mapGet archive.candidates x.id = some x) ∧
  (∀ t f, mapGet pareto.taskFronts t = some f →
    f.Nodup ∧ frontResolves cs t f ∧ frontNonDom cs t f) ∧
  (∀ x ∈ cs, coveredBy cs pareto x)

/-- Number of the given evaluations whose task has a front that contains
the candidate's id. -/
def frontHits (taskFronts : List (String × List String))
    (c : EvaluatedCandidate) (l : List EvalResult) : ℕ :=
  (l.filter (fun e =>
    match mapGet taskFronts e.testCaseId with
    | some f => c.id ∈ f
    | none => false)).length

/-- Dominance-count map after adding the given amount to one key: left
untouched when the amount is zero, otherwise set to the old value
(defaulting to 0) plus the amount. -/
def bumped (counts : List (String × ℤ)) (k : String) (amount : ℕ) :
    List (String × ℤ) :=
  if amount = 0 then counts
  else mapSet counts k (((mapGet counts k).getD 0) + amount)

/-- A one-candidate fixture for the re-insertion scenario: correct on the
Paris test case, with concrete numeric fields. -/
def cReFix : EvaluatedCandidate :=
  { id := "p1", tools := [toolWeather]
    accuracy := some 1, avgDescriptionLength := some 1
    evaluations := [{ testCaseId := "tc1", selectedTool := some "weather"
                      expectedTool := "weather", correct := true }] }

/-! ### Theorems -/

/-- C1: after the subsample evaluation, the offspring is rejected iff its
subsample score is below the parent's cached score on the same subsample
minus 1e-3, or below the configured minimum-accuracy floor; in particular
a score that at least matches the parent's and meets the floor is always
accepted (the scheduler then proceeds to the full evaluation). -/
theorem gepa_acceptance_gate (s p m : ℚ) :
    (gepaRejects (some s) (some p) m = true ↔ (s < p - 1 / 1000 ∨ s < m)) ∧
    (p ≤ s → m ≤ s → gepaRejects (some s) (some p) m = false) := by
  refine ⟨by simp [gepaRejects, jsLt, jsSub], fun h1 h2 => ?_⟩
  simp only [gepaRejects, jsLt, jsSub, Bool.or_eq_false_iff, decide_eq_false_iff_not, not_lt]
  constructor <;> [linarith; exact h2]

/-- Witness for `gepa_acceptance_gate`: a tie at the floor is accepted. -/
theorem gepa_acceptance_gate_witness :
    gepaRejects (some 1) (some 1) 0 = false :=
  (gepa_acceptance_gate 1 1 0).2 (le_refl 1) (by norm_num)

/-- C9: invoking the scheduler with an empty test-case list fails with the
configuration error before any candidate is evaluated: no events are
emitted and no archive is created. -/
theorem runGEPA_empty_testCases_config_error (config : GEPAConfig)
    (oracles : GEPAOracles) (fuel : ℕ) (h : config.testCases = []) :
    runGEPA config oracles fuel =
      ([], Except.error
        "GEPA requires test cases. Please generate test cases before starting optimization.") := by
  simp [runGEPA, h]

/-- Witness for `runGEPA_empty_testCases_config_error`. -/
theorem runGEPA_empty_testCases_config_error_witness :
    runGEPA (mkConfig [] 1 none) (mkOracles gatewayDown) 3 =
      ([], Except.error
        "GEPA requires test cases. Please generate test cases before starting optimization.") :=
  runGEPA_empty_testCases_config_error _ _ 3 rfl

/-- C2 (counterexample): for a parent with zero incorrect evaluations the
mutator issues no LLM call at all and returns the parent's tools verbatim,
refuting the claimed conciseness rewrite path. -/
theorem mutator_conciseness_counterexample :
    (mutateViaReflection (fun _ => Except.ok "short") "off1" 0
      parentAllCorrect [tcParis]).llmPrompts = [] ∧
    (mutateViaReflection (fun _ => Except.ok "short") "off1" 0
      parentAllCorrect [tcParis]).offspring.tools = parentAllCorrect.tools :=
  ⟨rfl, rfl⟩

/-- C2 (amended): for every parent with zero incorrect evaluations the
mutator returns a no-op offspring — a fresh id over the parent's unchanged
tools — emitting no reflection events and issuing no LLM call; there is no
conciseness path. -/
theorem mutate_no_failures_is_noop (reflectOracle : String → Except Unit String)
    (freshId : String) (pickIdx : ℕ) (candidate : EvaluatedCandidate)
    (testCases : List TestCase)
    (h : candidate.evaluations.filter (fun e => !e.correct) = []) :
    mutateViaReflection reflectOracle freshId pickIdx candidate testCases =
      { offspring := { id := freshId, tools := candidate.tools }
        events := [], llmPrompts := [] } := by
  unfold mutateViaReflection
  simp [h]

/-- Witness for `mutate_no_failures_is_noop`. -/
theorem mutate_no_failures_is_noop_witness :
    mutateViaReflection (fun _ => Except.error ()) "off2" 0
      parentAllCorrect [tcParis] =
      { offspring := { id := "off2", tools := parentAllCorrect.tools }
        events := [], llmPrompts := [] } :=
  mutate_no_failures_is_noop _ _ _ _ _ rfl

/-- C5: on one task, candidate A dominates candidate B exactly when A is
correct and B is not, or both are correct and A's candidate-level average
description length is strictly smaller; when both are incorrect, or both
are correct with equal average length, neither dominates the other. -/
theorem dominatesOnTask_characterization (A B : EvaluatedCandidate)
    (eA eB : EvalResult) (a b : ℚ)
    (hA : A.avgDescriptionLength = some a)
    (hB : B.avgDescriptionLength = some b) :
    (dominatesOnTask A B eA eB = true ↔
      (eA.correct = true ∧ eB.correct = false) ∨
      (eA.correct = true ∧ eB.correct = true ∧ a < b)) ∧
    (eA.correct = false → eB.correct = false →
      dominatesOnTask A B eA eB = false ∧
      dominatesOnTask B A eB eA = false) ∧
    (eA.correct = true → eB.correct = true → a = b →
      dominatesOnTask A B eA eB = false ∧
      dominatesOnTask B A eB eA = false) := by
  unfold dominatesOnTask
  cases hca : eA.correct <;> cases hcb : eB.correct <;>
    simp [hA, hB, jsLt, le_of_lt]
  intro h
  simp [h]

/-- Witness for `dominatesOnTask_characterization`: equal lengths and both
correct yield no domination either way. -/
theorem dominatesOnTask_characterization_witness :
    dominatesOnTask parentAllCorrect parentAllCorrect evalCorrectTc1
      evalCorrectTc1 = false :=
  ((dominatesOnTask_characterization parentAllCorrect parentAllCorrect
    evalCorrectTc1 evalCorrectTc1 1 1 rfl rfl).2.2 rfl rfl rfl).1

/-- C8: a provider error or a tool-free model response degrades to a
`null` selection with `correct = false` instead of raising, and the
candidate evaluation still completes over every test case. -/
theorem evaluator_contains_provider_errors
    (gateway : String → List Tool → GatewayResult) (tools : List Tool)
    (tc : TestCase) (candidate : Candidate) (testCases : List TestCase) :
    (gateway tc.query tools = GatewayResult.error →
      evaluateTestCase gateway tools tc =
        { testCaseId := tc.id, selectedTool := none
          expectedTool := tc.expectedTool, correct := false }) ∧
    (gateway tc.query tools = GatewayResult.ok none →
      evaluateTestCase gateway tools tc =
        { testCaseId := tc.id, selectedTool := none
          expectedTool := tc.expectedTool, correct := false }) ∧
    (evaluateCandidate gateway candidate testCases).1.evaluations.length =
      testCases.length := by
  refine ⟨fun h => ?_, fun h => ?_, ?_⟩
  · simp [evaluateTestCase, evaluateWithTools, h]
  · simp [evaluateTestCase, evaluateWithTools, h]
  · simp [evaluateCandidate]

/-- Witness for `evaluator_contains_provider_errors`: the always-failing
gateway yields an incorrect result with no selection. -/
theorem evaluator_contains_provider_errors_witness :
    evaluateTestCase gatewayDown [toolWeather] tcParis =
      { testCaseId := tcParis.id, selectedTool := none
        expectedTool := tcParis.expectedTool, correct := false } :=
  (evaluator_contains_provider_errors gatewayDown [toolWeather] tcParis
    { id := "c1", tools := [toolWeather] } [tcParis]).1 rfl

/-- C10: called directly on an empty test-case list, `evaluateCandidate`
still returns (it cannot raise), but its accuracy is the JavaScript value
`NaN` (`0/0`), hence not a rational in `[0, 1]`; on any nonempty list the
accuracy is a rational within `[0, 1]`. -/
theorem evaluateCandidate_accuracy_nan_on_empty
    (gateway : String → List Tool → GatewayResult) (candidate : Candidate) :
    (evaluateCandidate gateway candidate []).1.accuracy = none ∧
    (∀ testCases : List TestCase, testCases ≠ [] →
      ∃ q : ℚ, (evaluateCandidate gateway candidate testCases).1.accuracy
          = some q ∧ 0 ≤ q ∧ q ≤ 1) := by
  constructor
  · simp [evaluateCandidate, jsDiv]
  · intro testCases h
    have hlen : (testCases.map (evaluateTestCase gateway candidate.tools)).length
        = testCases.length := List.length_map _ _
    have hpos : 0 < (testCases.length : ℚ) := by
      have := List.length_pos.mpr h
      exact_mod_cast this
    refine ⟨(((testCases.map (evaluateTestCase gateway candidate.tools)).filter
        (fun e => e.correct)).length : ℚ) / (testCases.length : ℚ), ?_, ?_, ?_⟩
    · simp only [evaluateCandidate, jsDiv, hlen]
      rw [if_neg (by positivity)]
    · positivity
    · rw [div_le_one hpos]
      have hle := List.length_filter_le (fun e : EvalResult => e.correct)
        (testCases.map (evaluateTestCase gateway candidate.tools))
      rw [hlen] at hle
      exact_mod_cast hle

/-- Witness for `evaluateCandidate_accuracy_nan_on_empty`. -/
theorem evaluateCandidate_accuracy_nan_on_empty_witness :
    ∃ q : ℚ, (evaluateCandidate gatewayDown
        { id := "c1", tools := [toolWeather] } [tcParis]).1.accuracy
      = some q ∧ 0 ≤ q ∧ q ≤ 1 :=
  (evaluateCandidate_accuracy_nan_on_empty gatewayDown
    { id := "c1", tools := [toolWeather] }).2 [tcParis] (by simp)

/-- Counters distribute over concatenation of event streams. -/
theorem subsampleBudget_append (a b : List ProgressEvent) :
    subsampleBudget (a ++ b) = subsampleBudget a + subsampleBudget b := by
  simp [subsampleBudget, List.filterMap_append]

/-- Counting accepted offspring distributes over concatenation. -/
theorem acceptedEvalCount_append (a b : List ProgressEvent) :
    acceptedEvalCount (a ++ b) = acceptedEvalCount a + acceptedEvalCount b := by
  simp [acceptedEvalCount, List.filter_append]

/-- Streams without `subsample_eval` events carry no subsample budget. -/
theorem subsampleBudget_eq_zero (l : List ProgressEvent)
    (h : ∀ e ∈ l, subsampleSizeOf e = none) : subsampleBudget l = 0 := by
  simp [subsampleBudget, List.filterMap_eq_nil_iff.mpr h]

/-- Streams without `offspring_accepted` events count no acceptances. -/
theorem acceptedEvalCount_eq_zero (l : List ProgressEvent)
    (h : ∀ e ∈ l, isOffspringAccepted e = false) : acceptedEvalCount l = 0 := by
  have : l.filter isOffspringAccepted = [] := by
    rw [List.filter_eq_nil_iff]
    intro a ha
    simp [h a ha]
  simp [acceptedEvalCount, this]

/-- All events of a candidate evaluation are `evaluation` events. -/
theorem evalEvents_counters (gateway : String → List Tool → GatewayResult)
    (candidate : Candidate) (testCases : List TestCase) :
    ∀ e ∈ (evaluateCandidate gateway candidate testCases).2,
      subsampleSizeOf e = none ∧ isOffspringAccepted e = false := by
  intro e he
  simp only [evaluateCandidate, List.mem_map] at he
  obtain ⟨tc, _, rfl⟩ := he
  exact ⟨rfl, rfl⟩

/-- Case analysis on the mutator's result: a no-op offspring without
events, a successful rewrite with both reflection events, or a caught
provider error with only the start event; in all cases the fresh id is
stamped on the offspring. -/
theorem mutateViaReflection_shape (ro : String → Except Unit String)
    (fid : String) (pid : ℕ) (cand : EvaluatedCandidate)
    (tcs : List TestCase) :
    mutateViaReflection ro fid pid cand tcs =
        { offspring := { id := fid, tools := cand.tools }
          events := [], llmPrompts := [] } ∨
    (∃ cid tool fq fs fe oldDesc newDesc prompt tools2,
      mutateViaReflection ro fid pid cand tcs =
        { offspring := { id := fid, tools := tools2 }
          events := [ProgressEvent.reflection_start cid tool fq fs fe,
                     ProgressEvent.reflection_done cid tool oldDesc newDesc]
          llmPrompts := [prompt] }) ∨
    (∃ cid tool fq fs fe prompt,
      mutateViaReflection ro fid pid cand tcs =
        { offspring := { id := fid, tools := cand.tools }
          events := [ProgressEvent.reflection_start cid tool fq fs fe]
          llmPrompts := [prompt] }) := by
  generalize hr : mutateViaReflection ro fid pid cand tcs = r
  unfold mutateViaReflection at hr
  simp only [] at hr
  split at hr
  · subst hr; exact Or.inl rfl
  · split at hr
    · subst hr; exact Or.inl rfl
    · rename_i failure hfail
      split at hr
      · subst hr; exact Or.inl rfl
      · rename_i tool htool
        split at hr
        · subst hr; exact Or.inl rfl
        · rename_i testCase htc
          cases hres : ro (buildReflectionPrompt tool cand.tools testCase failure) with
          | ok newDescription =>
              rw [hres] at hr
              subst hr
              exact Or.inr (Or.inl ⟨_, _, _, _, _, _, _, _, _, rfl⟩)
          | error a =>
              rw [hres] at hr
              subst hr
              exact Or.inr (Or.inr ⟨_, _, _, _, _, _, rfl⟩)

/-- All events of a mutation are reflection events. -/
theorem mutationEvents_counters (ro : String → Except Unit String)
    (fid : String) (pid : ℕ) (cand : EvaluatedCandidate)
    (tcs : List TestCase) :
    ∀ e ∈ (mutateViaReflection ro fid pid cand tcs).events,
      subsampleSizeOf e = none ∧ isOffspringAccepted e = false := by
  intro e he
  rcases mutateViaReflection_shape ro fid pid cand tcs with h |
      ⟨c, t, fq, fs, fe, od, nd, p, t2, h⟩ | ⟨c, t, fq, fs, fe, p, h⟩ <;>
    rw [h] at he <;> simp only [List.mem_cons, List.not_mem_nil, or_false,
      List.mem_singleton] at he
  · rcases he with rfl | rfl <;> exact ⟨rfl, rfl⟩
  · subst he; exact ⟨rfl, rfl⟩

/-- The mutator always stamps the fresh id onto the offspring. -/
theorem mutateViaReflection_offspring_id (ro : String → Except Unit String)
    (fid : String) (pid : ℕ) (cand : EvaluatedCandidate)
    (tcs : List TestCase) :
    (mutateViaReflection ro fid pid cand tcs).offspring.id = fid := by
  rcases mutateViaReflection_shape ro fid pid cand tcs with h |
      ⟨c, t, fq, fs, fe, od, nd, p, t2, h⟩ | ⟨c, t, fq, fs, fe, p, h⟩ <;>
    rw [h]

/-- Evaluation keeps the candidate (and in particular its id). -/
theorem evaluateCandidate_fst_toCandidate
    (gateway : String → List Tool → GatewayResult) (candidate : Candidate)
    (testCases : List TestCase) :
    (evaluateCandidate gateway candidate testCases).1.toCandidate = candidate :=
  rfl

/-- Key membership matches the `Map.set` presence test. -/
theorem any_key_iff {α : Type} (m : List (String × α)) (k : String) :
    (m.any (fun p => p.1 = k)) = true ↔ k ∈ m.map Prod.fst := by
  rw [List.any_eq_true]
  constructor
  · rintro ⟨p, hp, hpk⟩
    exact List.mem_map.mpr ⟨p, hp, of_decide_eq_true hpk⟩
  · intro h
    obtain ⟨p, hp, hpk⟩ := List.mem_map.mp h
    exact ⟨p, hp, decide_eq_true hpk⟩

/-- Setting under a different head key skips the head. -/
theorem mapSet_cons_ne {α : Type} (q : String × α) (rest : List (String × α))
    (k : String) (v : α) (hq : q.1 ≠ k) :
    mapSet (q :: rest) k v = q :: mapSet rest k v := by
  unfold mapSet
  rw [List.any_cons, decide_eq_false hq, Bool.false_or]
  cases hr : rest.any (fun p => decide (p.1 = k)) <;> simp [hq]

/-- Getting the key just set returns the new value. -/
theorem mapGet_mapSet_self {α : Type} (m : List (String × α)) (k : String)
    (v : α) : mapGet (mapSet m k v) k = some v := by
  induction m with
  | nil => simp [mapSet, mapGet, List.find?]
  | cons q rest ih =>
    by_cases hq : q.1 = k
    · have hany : (q :: rest).any (fun p => decide (p.1 = k)) = true := by
        simp [List.any_cons, hq]
      simp [mapSet, hany, mapGet, List.find?, hq]
    · rw [mapSet_cons_ne q rest k v hq]
      simpa [mapGet, List.find?, hq] using ih

/-- Replacing the bindings of one key leaves lookups of other keys alone. -/
theorem mapGet_map_replace {α : Type} (m : List (String × α))
    (k k' : String) (v : α) (h : k' ≠ k) :
    mapGet (m.map (fun p => if p.1 = k then (k, v) else p)) k' = mapGet m k' := by
  induction m with
  | nil => rfl
  | cons q rest ih =>
    by_cases hq : q.1 = k
    · simp only [List.map_cons, hq, if_true]
      simp [mapGet, List.find?, Ne.symm h, hq] at ih ⊢
      simpa [mapGet] using ih
    · simp only [List.map_cons, hq, if_false]
      by_cases hq' : q.1 = k'
      · simp [mapGet, List.find?, hq']
      · simp [mapGet, List.find?, hq'] at ih ⊢
        simpa [mapGet] using ih

/-- Setting one key leaves lookups of other keys unchanged. -/
theorem mapGet_mapSet_ne {α : Type} (m : List (String × α)) (k k' : String)
    (v : α) (h : k' ≠ k) : mapGet (mapSet m k v) k' = mapGet m k' := by
  induction m with
  | nil => simp [mapSet, mapGet, List.find?, Ne.symm h]
  | cons q rest ih =>
    by_cases hq : q.1 = k
    · have hany : (q :: rest).any (fun p => decide (p.1 = k)) = true := by
        simp [List.any_cons, hq]
      simp only [mapSet, hany, if_true]
      exact mapGet_map_replace (q :: rest) k k' v h
    · rw [mapSet_cons_ne q rest k v hq]
      by_cases hq' : q.1 = k'
      · simp [mapGet, List.find?, hq']
      · simpa [mapGet, List.find?, hq'] using ih

/-- Overwriting a key twice is the same as writing it once. -/
theorem mapSet_mapSet_self {α : Type} (m : List (String × α)) (k : String)
    (v w : α) : mapSet (mapSet m k v) k w = mapSet m k w := by
  induction m with
  | nil => simp [mapSet, List.any_cons]
  | cons q rest ih =>
    by_cases hq : q.1 = k
    · have hany : (q :: rest).any (fun p => decide (p.1 = k)) = true := by
        simp [List.any_cons, hq]
      have hmap : ∀ (u : α), (q :: rest).map
          (fun p => if p.1 = k then (k, u) else p) =
          (k, u) :: rest.map (fun p => if p.1 = k then (k, u) else p) := by
        intro u; simp [hq]
      have hany2 : ((k, v) :: rest.map
          (fun p => if p.1 = k then (k, v) else p)).any
          (fun p => decide (p.1 = k)) = true := by
        simp [List.any_cons]
      simp only [mapSet, hany, if_true, hmap, hany2]
      have : (rest.map (fun p => if p.1 = k then (k, v) else p)).map
          (fun p => if p.1 = k then (k, w) else p) =
          rest.map (fun p => if p.1 = k then (k, w) else p) := by
        rw [List.map_map]
        refine List.map_congr_left (fun p _ => ?_)
        by_cases hp : p.1 = k <;> simp [hp]
      simp [this]
    · rw [mapSet_cons_ne q rest k v hq, mapSet_cons_ne q _ k w hq,
        mapSet_cons_ne q rest k w hq, ih]

/-- Rewriting a binding to the value it already holds is a no-op (first
binding wins on lookup, so this needs distinct keys). -/
theorem mapSet_self_of_get {α : Type} (m : List (String × α)) (k : String)
    (v : α) (hnd : (m.map Prod.fst).Nodup) (h : mapGet m k = some v) :
    mapSet m k v = m := by
  induction m with
  | nil => simp [mapGet, List.find?] at h
  | cons q rest ih =>
    by_cases hq : q.1 = k
    · have hv : q.2 = v := by
        simp [mapGet, List.find?, hq] at h
        exact h
      have hknotin : k ∉ rest.map Prod.fst := by
        have := (List.nodup_cons.mp hnd).1
        simpa [hq] using this
      have hany : (q :: rest).any (fun p => decide (p.1 = k)) = true := by
        simp [List.any_cons, hq]
      have hrest : rest.map (fun p => if p.1 = k then (k, v) else p) = rest := by
        have : ∀ p ∈ rest, (if p.1 = k then (k, v) else p) = p := by
          intro p hp
          have : p.1 ≠ k := by
            intro hpk
            exact hknotin (List.mem_map.mpr ⟨p, hp, hpk⟩)
          simp [this]
        calc rest.map (fun p => if p.1 = k then (k, v) else p)
            = rest.map id := List.map_congr_left this
          _ = rest := List.map_id rest
      simp only [mapSet, hany, if_true, List.map_cons, hq, if_true, hrest]
      rw [← hq, ← hv]
    · have hrest : mapGet rest k = some v := by
        simpa [mapGet, List.find?, hq] using h
      rw [mapSet_cons_ne q rest k v hq, ih (List.nodup_cons.mp hnd).2 hrest]

/-- Keys after a `Map.set`: unchanged when the key was present, appended
otherwise. -/
theorem mapSet_keys {α : Type} (m : List (String × α)) (k : String) (v : α) :
    (mapSet m k v).map Prod.fst =
      if k ∈ m.map Prod.fst then m.map Prod.fst
      else m.map Prod.fst ++ [k] := by
  by_cases hk : k ∈ m.map Prod.fst
  · have hany : m.any (fun p => decide (p.1 = k)) = true := by
      simpa using (any_key_iff m k).mpr hk
    simp only [mapSet, hany, if_true, hk, if_true, List.map_map]
    refine List.map_congr_left (fun p _ => ?_)
    by_cases hp : p.1 = k <;> simp [hp]
  · have hany : m.any (fun p => decide (p.1 = k)) = false := by
      rw [Bool.eq_false_iff]
      intro hc
      exact hk ((any_key_iff m k).mp (by simpa using hc))
    simp [mapSet, hany, hk]

/-- Size after a `Map.set`: unchanged when the key was present, one more
otherwise. -/
theorem mapSet_length {α : Type} (m : List (String × α)) (k : String) (v : α) :
    (mapSet m k v).length =
      if k ∈ m.map Prod.fst then m.length else m.length + 1 := by
  have := congrArg List.length (mapSet_keys m k v)
  simp only [List.length_map] at this
  rw [this]
  by_cases hk : k ∈ m.map Prod.fst <;> simp [hk]

/-- One scheduler iteration adds exactly the recorded subsample size, plus
one full-test-set evaluation when (and only when) it emits
`offspring_accepted`. -/
theorem gepaIter_budget (config : GEPAConfig) (oracles : GEPAOracles)
    (state : GEPAState) :
    (gepaIter config oracles state).1.totalEvaluations =
      state.totalEvaluations
        + subsampleBudget (gepaIter config oracles state).2.1
        + config.testCases.length
            * acceptedEvalCount (gepaIter config oracles state).2.1 := by
  generalize hr : gepaIter config oracles state = r
  unfold gepaIter at hr
  simp only [] at hr
  split at hr
  · subst hr
    simp [subsampleBudget, acceptedEvalCount, subsampleSizeOf,
      isOffspringAccepted]
  · rename_i parent hparent
    have hmut := mutationEvents_counters
      (oracles.reflectOracle (state.iteration + 1))
      (oracles.offspringId (state.iteration + 1))
      (oracles.mutPick (state.iteration + 1)) parent config.testCases
    have hmut1 := subsampleBudget_eq_zero _ (fun e he => (hmut e he).1)
    have hmut2 := acceptedEvalCount_eq_zero _ (fun e he => (hmut e he).2)
    split at hr
    · subst hr
      simp only [subsampleBudget_append, acceptedEvalCount_append, hmut1,
        hmut2]
      simp [subsampleBudget, acceptedEvalCount, subsampleSizeOf,
        isOffspringAccepted]
    · rename_i hreject
      have heval := evalEvents_counters
        (oracles.gatewayFull (state.iteration + 1))
        (mutateViaReflection (oracles.reflectOracle (state.iteration + 1))
          (oracles.offspringId (state.iteration + 1))
          (oracles.mutPick (state.iteration + 1)) parent
          config.testCases).offspring config.testCases
      have heval1 := subsampleBudget_eq_zero _ (fun e he => (heval e he).1)
      have heval2 := acceptedEvalCount_eq_zero _ (fun e he => (heval e he).2)
      subst hr
      simp only [subsampleBudget_append, acceptedEvalCount_append, hmut1,
        hmut2, heval1, heval2]
      simp [subsampleBudget, acceptedEvalCount, subsampleSizeOf,
        isOffspringAccepted]

/-- Budget bookkeeping of the main loop, relative to the starting state. -/
theorem gepaLoop_budget (config : GEPAConfig) (oracles : GEPAOracles) :
    ∀ (fuel : ℕ) (state : GEPAState),
      (gepaLoop config oracles fuel state).1.totalEvaluations =
        state.totalEvaluations
          + subsampleBudget (gepaLoop config oracles fuel state).2.1
          + config.testCases.length
              * acceptedEvalCount (gepaLoop config oracles fuel state).2.1 := by
  intro fuel
  induction fuel with
  | zero =>
      intro state
      simp [gepaLoop, subsampleBudget, acceptedEvalCount]
  | succ n ih =>
      intro state
      generalize hr : gepaLoop config oracles (n + 1) state = r
      simp only [gepaLoop] at hr
      split at hr
      · split at hr
        · subst hr
          have hit := gepaIter_budget config oracles state
          have hrec := ih (gepaIter config oracles state).1
          simp only [subsampleBudget_append, acceptedEvalCount_append]
          rw [Nat.mul_add]
          omega
        · subst hr
          simpa using gepaIter_budget config oracles state
      · subst hr
        simp [subsampleBudget, acceptedEvalCount]

/-- C4: for every run returning normally, the final consumed budget equals
the test-set size (baseline full evaluation) plus, summed over the
iterations, the recorded subsample size plus one further full test-set
evaluation exactly when that iteration's offspring passed the acceptance
gate (one `offspring_accepted` event); nothing else — in particular no
mutation LLM call — increments the budget. -/
theorem gepa_budget_accounting (config : GEPAConfig) (oracles : GEPAOracles)
    (fuel : ℕ) (events : List ProgressEvent) (archive : Archive)
    (st : GEPAState)
    (h : runGEPA config oracles fuel = (events, Except.ok (archive, st))) :
    st.totalEvaluations = config.testCases.length + subsampleBudget events
      + config.testCases.length * acceptedEvalCount events := by
  unfold runGEPA at h
  split at h
  · exact absurd (congrArg Prod.snd h) (by simp)
  · rename_i hne
    simp only [] at h
    injection h with hev hrest
    injection hrest with hpair
    have harch := congrArg Prod.fst hpair
    have hst := congrArg Prod.snd hpair
    simp only [] at harch hst
    subst hev
    subst hst
    have hbase := evalEvents_counters oracles.gatewayBaseline
      { id := oracles.baselineId, tools := config.tools } config.testCases
    have hbase1 := subsampleBudget_eq_zero _ (fun e he => (hbase e he).1)
    have hbase2 := acceptedEvalCount_eq_zero _ (fun e he => (hbase e he).2)
    rw [gepaLoop_budget config oracles fuel]
    split
    · simp only [subsampleBudget_append, acceptedEvalCount_append, hbase1,
        hbase2]
      simp only [subsampleBudget, acceptedEvalCount, subsampleSizeOf,
        isOffspringAccepted, List.filterMap, List.filter, List.sum_nil,
        List.length_nil]
      simp [Nat.mul_add]
    · simp only [subsampleBudget_append, acceptedEvalCount_append, hbase1,
        hbase2]
      simp only [subsampleBudget, acceptedEvalCount, subsampleSizeOf,
        isOffspringAccepted, List.filterMap, List.filter, List.sum_nil,
        List.length_nil]
      simp [Nat.mul_add]

/-- Witness for `gepa_budget_accounting` on the concrete run `runA`. -/
theorem gepa_budget_accounting_witness :
    runAState.totalEvaluations =
      (mkConfig [tcParis] 1 none).testCases.length + subsampleBudget runAEvents
        + (mkConfig [tcParis] 1 none).testCases.length
            * acceptedEvalCount runAEvents :=
  gepa_budget_accounting _ _ 1 runAEvents runAArchive runAState rfl

/-- The generated offspring ids are pairwise distinct. -/
theorem mkOracles_offspringId_inj (g : String → List Tool → GatewayResult) :
    ∀ i j : ℕ, i ≠ j →
      (mkOracles g).offspringId i ≠ (mkOracles g).offspringId j := by
  intro i j hij h
  have hlen := congrArg (fun s => s.data.length) h
  simp [mkOracles] at hlen
  exact hij hlen

/-- The generated offspring ids never clash with the baseline id. -/
theorem mkOracles_offspringId_ne_base (g : String → List Tool → GatewayResult) :
    ∀ i : ℕ, (mkOracles g).offspringId i ≠ (mkOracles g).baselineId := by
  intro i h
  have hd := congrArg String.data h
  simp only [mkOracles] at hd
  rw [List.replicate_succ] at hd
  have : 'x' = 'b' := by
    have := congrArg (fun l => l.headI) hd
    simp at this
  exact absurd this (by decide)

/-- Structural case split on one scheduler iteration as far as the archive
and the counters are concerned: either the archive is untouched (break or
rejection), or exactly one offspring — stamped with this iteration's fresh
id — is added and `acceptedCount` is incremented. -/
theorem gepaIter_cases (config : GEPAConfig) (oracles : GEPAOracles)
    (state : GEPAState) :
    ((gepaIter config oracles state).1.archive = state.archive ∧
     (gepaIter config oracles state).1.acceptedCount = state.acceptedCount ∧
     (gepaIter config oracles state).1.iteration = state.iteration + 1) ∨
    (∃ (offspringEval : EvaluatedCandidate) (parentId : String) (now : ℕ),
      offspringEval.id = oracles.offspringId (state.iteration + 1) ∧
      (gepaIter config oracles state).1.archive =
        addToArchive state.archive offspringEval now (some parentId) ∧
      (gepaIter config oracles state).1.acceptedCount
        = state.acceptedCount + 1 ∧
      (gepaIter config oracles state).1.iteration = state.iteration + 1) := by
  generalize hr : gepaIter config oracles state = r
  unfold gepaIter at hr
  simp only [] at hr
  split at hr
  · subst hr
    exact Or.inl ⟨rfl, rfl, rfl⟩
  · rename_i parent hparent
    split at hr
    · subst hr
      exact Or.inl ⟨rfl, rfl, rfl⟩
    · subst hr
      refine Or.inr ⟨_, _, _, ?_, rfl, rfl, rfl⟩
      exact (congrArg Candidate.id
        (evaluateCandidate_fst_toCandidate _ _ _)).trans
        (mutateViaReflection_offspring_id _ _ _ _ _)

/-- The archive-size/accepted-count invariant is preserved by one
iteration, provided fresh ids never collide. -/
theorem gepaIter_archive_size (config : GEPAConfig) (oracles : GEPAOracles)
    (state : GEPAState)
    (hinj : ∀ i j : ℕ, i ≠ j →
      oracles.offspringId i ≠ oracles.offspringId j)
    (hbase : ∀ i : ℕ, oracles.offspringId i ≠ oracles.baselineId)
    (hsize : getArchiveSize state.archive = state.acceptedCount)
    (hkeys : ∀ k ∈ archiveKeys state.archive, k = oracles.baselineId ∨
      ∃ j, 1 ≤ j ∧ j ≤ state.iteration ∧ k = oracles.offspringId j) :
    getArchiveSize (gepaIter config oracles state).1.archive =
      (gepaIter config oracles state).1.acceptedCount ∧
    (∀ k ∈ archiveKeys (gepaIter config oracles state).1.archive,
      k = oracles.baselineId ∨
      ∃ j, 1 ≤ j ∧ j ≤ (gepaIter config oracles state).1.iteration ∧
        k = oracles.offspringId j) := by
  rcases gepaIter_cases config oracles state with
    ⟨ha, hc, hi⟩ | ⟨offspringEval, parentId, now, hid, ha, hc, hi⟩
  · rw [ha, hc, hi]
    refine ⟨hsize, fun k hk => ?_⟩
    rcases hkeys k hk with h | ⟨j, h1, h2, h3⟩
    · exact Or.inl h
    · exact Or.inr ⟨j, h1, Nat.le_succ_of_le h2, h3⟩
  · have hnotin : offspringEval.id ∉ archiveKeys state.archive := by
      rw [hid]
      intro hk
      rcases hkeys _ hk with h | ⟨j, h1, h2, h3⟩
      · exact hbase _ h
      · exact hinj (state.iteration + 1) j (by omega) h3
    rw [ha, hc, hi]
    constructor
    · have hlen := mapSet_length state.archive.candidates offspringEval.id
        offspringEval
      rw [if_neg (show offspringEval.id ∉
        state.archive.candidates.map Prod.fst from hnotin)] at hlen
      have hsize2 : state.archive.candidates.length = state.acceptedCount :=
        hsize
      simpa [getArchiveSize, addToArchive, archiveKeys, hsize2] using hlen
    · intro k hk
      have hkeys2 := mapSet_keys state.archive.candidates offspringEval.id
        offspringEval
      rw [if_neg (show offspringEval.id ∉
        state.archive.candidates.map Prod.fst from hnotin)] at hkeys2
      simp only [addToArchive, archiveKeys] at hk
      rw [hkeys2] at hk
      rcases List.mem_append.mp hk with h | h
      · rcases hkeys k h with h' | ⟨j, h1, h2, h3⟩
        · exact Or.inl h'
        · exact Or.inr ⟨j, h1, Nat.le_succ_of_le h2, h3⟩
      · have : k = offspringEval.id := by simpa using h
        exact Or.inr ⟨state.iteration + 1, by omega, le_refl _, this.trans hid⟩

/-- The archive-size/accepted-count invariant is preserved by the loop. -/
theorem gepaLoop_archive_size (config : GEPAConfig) (oracles : GEPAOracles)
    (hinj : ∀ i j : ℕ, i ≠ j →
      oracles.offspringId i ≠ oracles.offspringId j)
    (hbase : ∀ i : ℕ, oracles.offspringId i ≠ oracles.baselineId) :
    ∀ (fuel : ℕ) (state : GEPAState),
      getArchiveSize state.archive = state.acceptedCount →
      (∀ k ∈ archiveKeys state.archive, k = oracles.baselineId ∨
        ∃ j, 1 ≤ j ∧ j ≤ state.iteration ∧ k = oracles.offspringId j) →
      getArchiveSize (gepaLoop config oracles fuel state).1.archive =
        (gepaLoop config oracles fuel state).1.acceptedCount := by
  intro fuel
  induction fuel with
  | zero => intro state hsize _; simpa [gepaLoop] using hsize
  | succ n ih =>
      intro state hsize hkeys
      generalize hr : gepaLoop config oracles (n + 1) state = r
      simp only [gepaLoop] at hr
      split at hr
      · split at hr
        · subst hr
          simp only []
          exact ih _ (gepaIter_archive_size config oracles state hinj hbase
              hsize hkeys).1
            (gepaIter_archive_size config oracles state hinj hbase
              hsize hkeys).2
        · subst hr
          exact (gepaIter_archive_size config oracles state hinj hbase
            hsize hkeys).1
      · subst hr
        exact hsize

/-- C7 (amended): at the end of every run (and, since `fuel` ranges over
all prefixes of the loop, at every iteration boundary) the archive size
equals `acceptedCount`, with the baseline counted in `acceptedCount` — not
`acceptedCount + 1`. -/
theorem archive_size_eq_accepted (config : GEPAConfig)
    (oracles : GEPAOracles) (fuel : ℕ) (events : List ProgressEvent)
    (archive : Archive) (st : GEPAState)
    (hinj : ∀ i j : ℕ, i ≠ j →
      oracles.offspringId i ≠ oracles.offspringId j)
    (hbase : ∀ i : ℕ, oracles.offspringId i ≠ oracles.baselineId)
    (h : runGEPA config oracles fuel = (events, Except.ok (archive, st))) :
    getArchiveSize archive = st.acceptedCount := by
  unfold runGEPA at h
  split at h
  · exact absurd (congrArg Prod.snd h) (by simp)
  · rename_i hne
    simp only [] at h
    injection h with hev hrest
    injection hrest with hpair
    have harch := congrArg Prod.fst hpair
    have hst := congrArg Prod.snd hpair
    simp only [] at harch hst
    subst harch
    subst hst
    apply gepaLoop_archive_size config oracles hinj hbase fuel
    · show (mapSet createArchive.candidates _ _).length = 1
      have hid : (evaluateCandidate oracles.gatewayBaseline
          { id := oracles.baselineId, tools := config.tools }
          config.testCases).1.id = oracles.baselineId :=
        congrArg Candidate.id (evaluateCandidate_fst_toCandidate _ _ _)
      simp [createArchive, mapSet]
    · intro k hk
      have hid : (evaluateCandidate oracles.gatewayBaseline
          { id := oracles.baselineId, tools := config.tools }
          config.testCases).1.id = oracles.baselineId :=
        congrArg Candidate.id (evaluateCandidate_fst_toCandidate _ _ _)
      left
      simp only [archiveKeys, addToArchive, createArchive, mapSet,
        List.any_nil, List.nil_append, List.map_cons, List.map_nil,
        List.mem_singleton, if_false, Bool.false_eq_true] at hk
      exact hk.trans hid

/-- Witness for `archive_size_eq_accepted` on the concrete run `runA`. -/
theorem archive_size_eq_accepted_witness :
    getArchiveSize runAArchive = runAState.acceptedCount :=
  archive_size_eq_accepted (mkConfig [tcParis] 1 none)
    (mkOracles gatewayWeather) 1 runAEvents runAArchive runAState
    (mkOracles_offspringId_inj gatewayWeather)
    (mkOracles_offspringId_ne_base gatewayWeather) rfl

/-- C7 (counterexample): after the baseline-only run `runA` the archive
holds one candidate and `acceptedCount` is already 1 (the baseline is
counted), so `archive.size() = accepted_count`, not `accepted_count + 1`. -/
theorem archive_size_counterexample :
    getArchiveSize runAArchive = 1 ∧ runAState.acceptedCount = 1 ∧
      getArchiveSize runAArchive ≠ runAState.acceptedCount + 1 := by
  refine ⟨rfl, rfl, ?_⟩
  intro h
  rw [show runAState.acceptedCount = 1 from rfl] at h
  rw [show getArchiveSize runAArchive = 1 from rfl] at h
  exact absurd h (by decide)

/-- The floor property is closed under concatenation of event streams. -/
theorem acceptedMeetsFloor_append (m : ℚ) (a b : List ProgressEvent)
    (ha : acceptedMeetsFloor m a) (hb : acceptedMeetsFloor m b) :
    acceptedMeetsFloor m (a ++ b) := by
  intro c acc avg idx pid it hmem
  rcases List.mem_append.mp hmem with h | h
  · obtain ⟨it2, s, ps, k, hm, hlt⟩ := ha c acc avg idx pid it h
    exact ⟨it2, s, ps, k, List.mem_append.mpr (Or.inl hm), hlt⟩
  · obtain ⟨it2, s, ps, k, hm, hlt⟩ := hb c acc avg idx pid it h
    exact ⟨it2, s, ps, k, List.mem_append.mpr (Or.inr hm), hlt⟩

/-- Streams with no `offspring_accepted` event meet the floor vacuously. -/
theorem acceptedMeetsFloor_of_none (m : ℚ) (l : List ProgressEvent)
    (h : ∀ e ∈ l, isOffspringAccepted e = false) : acceptedMeetsFloor m l := by
  intro c acc avg idx pid it hmem
  have hfalse := h _ hmem
  simp [isOffspringAccepted] at hfalse

/-- A stream whose only accepted offspring is `c`, together with a
recorded subsample score for `c` meeting the floor, meets the floor. -/
theorem acceptedMeetsFloor_of_witness (m : ℚ) (l : List ProgressEvent)
    (c : String) (it2 : ℕ) (s ps : Option ℚ) (k : ℕ)
    (hsub : ProgressEvent.subsample_eval c it2 s ps k ∈ l)
    (hfloor : jsLt s (some m) = false)
    (hacc : ∀ e ∈ l, isOffspringAccepted e = true →
      ∃ acc avg idx pid it,
        e = ProgressEvent.offspring_accepted c acc avg idx pid it) :
    acceptedMeetsFloor m l := by
  intro c' acc avg idx pid it hmem
  obtain ⟨acc2, avg2, idx2, pid2, it3, heq⟩ := hacc _ hmem rfl
  injection heq with hc _
  subst hc
  exact ⟨it2, s, ps, k, hsub, hfloor⟩

/-- Every iteration's event chunk meets the `minAccuracy` floor: an
`offspring_accepted` event is only emitted when the acceptance gate
passed, and the gate includes the floor check. -/
theorem gepaIter_meets_floor (config : GEPAConfig) (oracles : GEPAOracles)
    (state : GEPAState) :
    acceptedMeetsFloor ((config.minAccuracy).getD 0)
      (gepaIter config oracles state).2.1 := by
  generalize hr : gepaIter config oracles state = r
  unfold gepaIter at hr
  simp only [] at hr
  split at hr
  · subst hr
    apply acceptedMeetsFloor_of_none
    intro e he
    simp only [List.mem_singleton] at he
    subst he; rfl
  · rename_i parent hparent
    have hmut := mutationEvents_counters
      (oracles.reflectOracle (state.iteration + 1))
      (oracles.offspringId (state.iteration + 1))
      (oracles.mutPick (state.iteration + 1)) parent config.testCases
    split at hr
    · subst hr
      apply acceptedMeetsFloor_of_none
      refine List.forall_mem_append.mpr ⟨?_, ?_⟩
      · refine List.forall_mem_append.mpr ⟨?_, ?_⟩
        · refine List.forall_mem_append.mpr ⟨?_, ?_⟩
          · refine List.forall_mem_append.mpr ⟨?_, ?_⟩
            · intro e he
              rw [List.mem_singleton] at he
              subst he; rfl
            · intro e he
              simp only [List.mem_cons, List.not_mem_nil, or_false] at he
              rcases he with rfl | rfl <;> rfl
          · intro e he
            exact (hmut e he).2
        · intro e he
          rw [List.mem_singleton] at he
          subst he; rfl
      · intro e he
        simp only [List.mem_cons, List.not_mem_nil, or_false] at he
        rcases he with rfl | rfl | rfl <;> rfl
    · rename_i hreject
      have hfloor : jsLt (evaluateOnSubsample
          (oracles.gatewaySub (state.iteration + 1))
          (mutateViaReflection (oracles.reflectOracle (state.iteration + 1))
            (oracles.offspringId (state.iteration + 1))
            (oracles.mutPick (state.iteration + 1)) parent
            config.testCases).offspring
          (sampleTestCases (oracles.shuffle (state.iteration + 1))
            config.testCases config.subsampleSize))
          (some ((config.minAccuracy).getD 0)) = false := by
        have h2 : gepaRejects (evaluateOnSubsample
            (oracles.gatewaySub (state.iteration + 1))
            (mutateViaReflection (oracles.reflectOracle (state.iteration + 1))
              (oracles.offspringId (state.iteration + 1))
              (oracles.mutPick (state.iteration + 1)) parent
              config.testCases).offspring
            (sampleTestCases (oracles.shuffle (state.iteration + 1))
              config.testCases config.subsampleSize))
            (getParentSubsampleScore parent
              (sampleTestCases (oracles.shuffle (state.iteration + 1))
                config.testCases config.subsampleSize))
            ((config.minAccuracy).getD 0) = false :=
          Bool.eq_false_iff.mpr hreject
        simp only [gepaRejects, Bool.or_eq_false_iff] at h2
        exact h2.2
      have heval := evalEvents_counters
        (oracles.gatewayFull (state.iteration + 1))
        (mutateViaReflection (oracles.reflectOracle (state.iteration + 1))
          (oracles.offspringId (state.iteration + 1))
          (oracles.mutPick (state.iteration + 1)) parent
          config.testCases).offspring config.testCases
      subst hr
      refine acceptedMeetsFloor_of_witness _ _
        (mutateViaReflection (oracles.reflectOracle (state.iteration + 1))
          (oracles.offspringId (state.iteration + 1))
          (oracles.mutPick (state.iteration + 1)) parent
          config.testCases).offspring.id
        (state.iteration + 1)
        (evaluateOnSubsample (oracles.gatewaySub (state.iteration + 1))
          (mutateViaReflection (oracles.reflectOracle (state.iteration + 1))
            (oracles.offspringId (state.iteration + 1))
            (oracles.mutPick (state.iteration + 1)) parent
            config.testCases).offspring
          (sampleTestCases (oracles.shuffle (state.iteration + 1))
            config.testCases config.subsampleSize))
        (getParentSubsampleScore parent
          (sampleTestCases (oracles.shuffle (state.iteration + 1))
            config.testCases config.subsampleSize))
        (sampleTestCases (oracles.shuffle (state.iteration + 1))
          config.testCases config.subsampleSize).length
        (by simp) hfloor ?_
      refine List.forall_mem_append.mpr ⟨?_, ?_⟩
      · refine List.forall_mem_append.mpr ⟨?_, ?_⟩
        · refine List.forall_mem_append.mpr ⟨?_, ?_⟩
          · refine List.forall_mem_append.mpr ⟨?_, ?_⟩
            · refine List.forall_mem_append.mpr ⟨?_, ?_⟩
              · refine List.forall_mem_append.mpr ⟨?_, ?_⟩
                · intro e he htrue
                  rw [List.mem_singleton] at he
                  subst he
                  simp [isOffspringAccepted] at htrue
                · intro e he htrue
                  simp only [List.mem_cons, List.not_mem_nil, or_false] at he
                  rcases he with rfl | rfl <;>
                    simp [isOffspringAccepted] at htrue
              · intro e he htrue
                exact absurd ((hmut e he).2.symm.trans htrue) (by simp)
            · intro e he htrue
              rw [List.mem_singleton] at he
              subst he
              simp [isOffspringAccepted] at htrue
          · intro e he htrue
            rw [List.mem_singleton] at he
            subst he
            simp [isOffspringAccepted] at htrue
        · intro e he htrue
          exact absurd ((heval e he).2.symm.trans htrue) (by simp)
      · intro e he htrue
        simp only [List.mem_cons, List.not_mem_nil, or_false] at he
        rcases he with rfl | rfl | rfl | rfl
        · simp [isOffspringAccepted] at htrue
        · exact ⟨_, _, _, _, _, rfl⟩
        · simp [isOffspringAccepted] at htrue
        · simp [isOffspringAccepted] at htrue

/-- Every loop-event stream meets the `minAccuracy` floor. -/
theorem gepaLoop_meets_floor (config : GEPAConfig) (oracles : GEPAOracles) :
    ∀ (fuel : ℕ) (state : GEPAState),
      acceptedMeetsFloor ((config.minAccuracy).getD 0)
        (gepaLoop config oracles fuel state).2.1 := by
  intro fuel
  induction fuel with
  | zero =>
      intro state
      apply acceptedMeetsFloor_of_none
      intro e he
      simp [gepaLoop] at he
  | succ n ih =>
      intro state
      generalize hr : gepaLoop config oracles (n + 1) state = r
      simp only [gepaLoop] at hr
      split at hr
      · split at hr
        · subst hr
          exact acceptedMeetsFloor_append _ _ _
            (gepaIter_meets_floor config oracles state) (ih _)
        · subst hr
          exact gepaIter_meets_floor config oracles state
      · subst hr
        apply acceptedMeetsFloor_of_none
        intro e he
        simp at he

/-- Lookup success in the candidate map survives a `Map.set`. -/
theorem mapGet_mapSet_isSome {α : Type} (m : List (String × α))
    (k k' : String) (v : α) (h : (mapGet m k').isSome = true) :
    (mapGet (mapSet m k v) k').isSome = true := by
  by_cases hk : k' = k
  · subst hk
    rw [mapGet_mapSet_self]
    rfl
  · rw [mapGet_mapSet_ne m k k' v hk]
    exact h

/-- A candidate present in the archive stays present across one
scheduler iteration. -/
theorem gepaIter_preserves_mem (config : GEPAConfig) (oracles : GEPAOracles)
    (state : GEPAState) (k : String)
    (h : (mapGet state.archive.candidates k).isSome = true) :
    (mapGet (gepaIter config oracles state).1.archive.candidates k).isSome
      = true := by
  rcases gepaIter_cases config oracles state with
    ⟨ha, _, _⟩ | ⟨offspringEval, parentId, now, _, ha, _, _⟩
  · rw [ha]; exact h
  · rw [ha]
    exact mapGet_mapSet_isSome _ _ _ _ h

/-- A candidate present in the archive stays present across the loop. -/
theorem gepaLoop_preserves_mem (config : GEPAConfig) (oracles : GEPAOracles) :
    ∀ (fuel : ℕ) (state : GEPAState) (k : String),
      (mapGet state.archive.candidates k).isSome = true →
      (mapGet (gepaLoop config oracles fuel state).1.archive.candidates
        k).isSome = true := by
  intro fuel
  induction fuel with
  | zero => intro state k h; simpa [gepaLoop] using h
  | succ n ih =>
      intro state k h
      generalize hr : gepaLoop config oracles (n + 1) state = r
      simp only [gepaLoop] at hr
      split at hr
      · split at hr
        · subst hr
          exact ih _ _ (gepaIter_preserves_mem config oracles state k h)
        · subst hr
          exact gepaIter_preserves_mem config oracles state k h
      · subst hr
        exact h

/-- C3 (amended): when the run returns, every accepted offspring had a
recorded subsample score meeting the `minAccuracy` floor — the gate bounds
only the subsample score, not the final full-test-set accuracy — and the
baseline candidate is in the archive regardless of its accuracy. -/
theorem gepa_min_accuracy_gate (config : GEPAConfig) (oracles : GEPAOracles)
    (fuel : ℕ) (events : List ProgressEvent) (archive : Archive)
    (st : GEPAState)
    (h : runGEPA config oracles fuel = (events, Except.ok (archive, st))) :
    acceptedMeetsFloor ((config.minAccuracy).getD 0) events ∧
    (getCandidateFromArchive archive oracles.baselineId).isSome = true := by
  unfold runGEPA at h
  split at h
  · exact absurd (congrArg Prod.snd h) (by simp)
  · rename_i hne
    simp only [] at h
    injection h with hev hrest
    injection hrest with hpair
    have harch := congrArg Prod.fst hpair
    have hst := congrArg Prod.snd hpair
    simp only [] at harch hst
    subst hev
    subst harch
    have hbase := evalEvents_counters oracles.gatewayBaseline
      { id := oracles.baselineId, tools := config.tools } config.testCases
    constructor
    · apply acceptedMeetsFloor_append
      · apply acceptedMeetsFloor_of_none
        refine List.forall_mem_append.mpr ⟨?_, ?_⟩
        · intro e he
          exact (hbase e he).2
        · intro e he
          simp only [List.mem_cons, List.not_mem_nil, or_false] at he
          rcases he with rfl | rfl <;> rfl
      · split
        · apply acceptedMeetsFloor_append
          · exact gepaLoop_meets_floor config oracles fuel _
          · apply acceptedMeetsFloor_of_none
            intro e he
            rw [List.mem_singleton] at he
            subst he; rfl
        · exact gepaLoop_meets_floor config oracles fuel _
    · apply gepaLoop_preserves_mem
      show (mapGet (mapSet createArchive.candidates _ _)
        oracles.baselineId).isSome = true
      have hid : (evaluateCandidate oracles.gatewayBaseline
          { id := oracles.baselineId, tools := config.tools }
          config.testCases).1.id = oracles.baselineId :=
        congrArg Candidate.id (evaluateCandidate_fst_toCandidate _ _ _)
      rw [hid, mapGet_mapSet_self]
      rfl

/-- Witness for `gepa_min_accuracy_gate` on the concrete run `runA`. -/
theorem gepa_min_accuracy_gate_witness :
    acceptedMeetsFloor (((mkConfig [tcParis] 1 none).minAccuracy).getD 0)
      runAEvents ∧
    (getCandidateFromArchive runAArchive
      (mkOracles gatewayWeather).baselineId).isSome = true :=
  gepa_min_accuracy_gate (mkConfig [tcParis] 1 none)
    (mkOracles gatewayWeather) 1 runAEvents runAArchive runAState rfl

/-- C3 (counterexample): with `minAccuracy = 0.7 > 0` and a gateway that
always fails, the baseline reaches the archive with full accuracy 0, which
is below the floor — the archive is not protected by `minAccuracy`. -/
theorem minAccuracy_archive_counterexample :
    (mkConfig [tcParis] 1 (some (7 / 10))).minAccuracy = some (7 / 10) ∧
    (0 : ℚ) < 7 / 10 ∧
    jsLt (some 0) (some (7 / 10)) = true ∧
    ((getCandidateFromArchive runBArchive "base").map
      (fun c => c.accuracy)) = some (some 0) := by
  refine ⟨rfl, by norm_num, by norm_num [jsLt], ?_⟩
  norm_num [runBArchive, runB, runGEPA, mkConfig, mkOracles, tcParis,
    toolWeather, gepaLoop, addToArchive, createArchive,
    getCandidateFromArchive, mapGet, mapSet, evaluateCandidate,
    evaluateTestCase, evaluateWithTools, gatewayDown, jsDiv,
    Except.toOption, List.find?]
  decide

/-- Strict JavaScript comparison is irreflexive. -/
theorem jsLt_irrefl (x : Option ℚ) : jsLt x x = false := by
  cases x <;> simp [jsLt]

/-- Strict JavaScript comparison is asymmetric. -/
theorem jsLt_asymm (x y : Option ℚ) (h : jsLt x y = true) :
    jsLt y x = false := by
  cases x <;> cases y <;> simp_all [jsLt]
  linarith

/-- Strict JavaScript comparison is transitive. -/
theorem jsLt_trans (x y z : Option ℚ) (h1 : jsLt x y = true)
    (h2 : jsLt y z = true) : jsLt x z = true := by
  cases x <;> cases y <;> cases z <;> simp_all [jsLt]
  linarith

/-- A candidate never dominates itself on a task. -/
theorem dominatesOnTask_irrefl (a : EvaluatedCandidate) (e : EvalResult) :
    dominatesOnTask a a e e = false := by
  unfold dominatesOnTask
  cases h : e.correct <;> simp [h, jsLt_irrefl]

/-- Domination on a task is asymmetric. -/
theorem dominatesOnTask_asymm (a b : EvaluatedCandidate)
    (ea eb : EvalResult) (h : dominatesOnTask a b ea eb = true) :
    dominatesOnTask b a eb ea = false := by
  unfold dominatesOnTask at h ⊢
  cases ha : ea.correct <;> cases hb : eb.correct <;> simp_all
  exact jsLt_asymm _ _ h

/-- Domination on a task is transitive (a dominator of a dominator
dominates). -/
theorem dominatesOnTask_trans (a b c : EvaluatedCandidate)
    (ea eb ec : EvalResult) (h1 : dominatesOnTask a b ea eb = true)
    (h2 : dominatesOnTask b c eb ec = true) :
    dominatesOnTask a c ea ec = true := by
  unfold dominatesOnTask at h1 h2 ⊢
  cases ha : ea.correct <;> cases hb : eb.correct <;> cases hc : ec.correct <;>
    simp_all
  exact jsLt_trans _ _ _ h1 h2

/-- Transitivity of cached-evaluation domination. -/
theorem DomOn_trans (a b c : EvaluatedCandidate) (t : String)
    (h1 : DomOn a b t) (h2 : DomOn b c t) : DomOn a c t := by
  obtain ⟨ea, eb, hea, heb, hab⟩ := h1
  obtain ⟨eb', ec, heb', hec, hbc⟩ := h2
  rw [heb] at heb'
  injection heb' with heq
  subst heq
  exact ⟨ea, ec, hea, hec, dominatesOnTask_trans a b c ea eb ec hab hbc⟩

/-- Membership after deleting a batch from a set. -/
theorem mem_foldl_setDelete (l : List String) (f : List String) (x : String) :
    x ∈ l.foldl setDelete f ↔ x ∈ f ∧ x ∉ l := by
  induction l generalizing f with
  | nil => simp
  | cons y rest ih =>
      rw [List.foldl_cons, ih]
      unfold setDelete
      constructor
      · rintro ⟨hmem, hnot⟩
        rw [List.mem_filter] at hmem
        refine ⟨hmem.1, ?_⟩
        intro hc
        rcases List.mem_cons.mp hc with rfl | hc
        · have hx := hmem.2
          simp at hx
        · exact hnot hc
      · rintro ⟨hmem, hnot⟩
        refine ⟨List.mem_filter.mpr ⟨hmem, ?_⟩, fun hc => hnot (List.mem_cons_of_mem _ hc)⟩
        simp only [ne_eq, decide_eq_true_eq]
        intro hxy
        exact hnot (hxy ▸ List.mem_cons_self _ _)

/-- Deleting a batch preserves distinctness. -/
theorem nodup_foldl_setDelete (l : List String) (f : List String)
    (h : f.Nodup) : (l.foldl setDelete f).Nodup := by
  induction l generalizing f with
  | nil => simpa
  | cons y rest ih =>
      rw [List.foldl_cons]
      exact ih _ (List.Nodup.filter _ h)

/-- Membership in a set after `Set.add`. -/
theorem setAdd_mem (s : List String) (y x : String) :
    x ∈ setAdd s y ↔ x ∈ s ∨ x = y := by
  unfold setAdd
  split
  · rename_i hy
    constructor
    · exact Or.inl
    · rintro (h | rfl)
      · exact h
      · exact hy
  · simp

/-- `Set.add` preserves distinctness. -/
theorem setAdd_nodup (s : List String) (y : String) (h : s.Nodup) :
    (setAdd s y).Nodup := by
  unfold setAdd
  split
  · exact h
  · rename_i hy
    simpa [List.nodup_append] using ⟨h, hy⟩

/-- A successful lookup means the key is present. -/
theorem mapGet_isSome_mem_keys {α : Type} (m : List (String × α))
    (k : String) (v : α) (h : mapGet m k = some v) : k ∈ m.map Prod.fst := by
  unfold mapGet at h
  cases hf : m.find? (fun p => p.1 = k) with
  | none => rw [hf] at h; simp at h
  | some p =>
      have hmem := List.mem_of_find?_eq_some hf
      have hpk := List.find?_some hf
      simp only [decide_eq_true_eq] at hpk
      exact List.mem_map.mpr ⟨p, hmem, hpk⟩

/-- If no front member interacts with the new candidate either way, the
scan removes nobody and reports no domination. -/
theorem frontScan_no_interaction (ar : Archive) (n : EvaluatedCandidate)
    (e : EvalResult) (f : List String)
    (h : ∀ cid ∈ f, ∀ x, mapGet ar.candidates cid = some x →
      ∀ ec, x.evaluations.find?
          (fun ev => ev.testCaseId = e.testCaseId) = some ec →
        dominatesOnTask n x e ec = false ∧
        dominatesOnTask x n ec e = false) :
    frontScan ar n e f = ([], false) := by
  induction f with
  | nil => rfl
  | cons cid rest ih =>
      have hrest := fun cid' hm => h cid' (List.mem_cons_of_mem _ hm)
      rw [frontScan]
      cases hx : mapGet ar.candidates cid with
      | none => exact ih hrest
      | some x =>
          dsimp only
          cases hec : x.evaluations.find?
              (fun ev => ev.testCaseId = e.testCaseId) with
          | none => exact ih hrest
          | some ec =>
              dsimp only
              have h1 := (h cid (List.mem_cons_self _ _) x hx ec hec).1
              have h2 := (h cid (List.mem_cons_self _ _) x hx ec hec).2
              simp only [h1, h2, Bool.false_eq_true, if_false]
              exact ih hrest

/-- If some front member dominates the new candidate, the scan reports a
domination. -/
theorem frontScan_isDominated (ar : Archive) (n : EvaluatedCandidate)
    (e : EvalResult) (f : List String)
    (h : ∃ cid ∈ f, ∃ x ec, mapGet ar.candidates cid = some x ∧
      x.evaluations.find? (fun ev => ev.testCaseId = e.testCaseId) = some ec ∧
      dominatesOnTask x n ec e = true) :
    (frontScan ar n e f).2 = true := by
  induction f with
  | nil => simp at h
  | cons c0 rest ih =>
      obtain ⟨cid', hc', x, ec, hx, hec, hdom⟩ := h
      rw [frontScan]
      rcases List.mem_cons.mp hc' with rfl | hmem
      · rw [hx]
        dsimp only
        rw [hec]
        dsimp only
        have hnd : dominatesOnTask n x e ec = false :=
          dominatesOnTask_asymm _ _ _ _ hdom
        simp [hnd, hdom]
      · cases hx0 : mapGet ar.candidates c0 with
        | none => exact ih ⟨cid', hmem, x, ec, hx, hec, hdom⟩
        | some x0 =>
            dsimp only
            cases hec0 : x0.evaluations.find?
                (fun ev => ev.testCaseId = e.testCaseId) with
            | none => exact ih ⟨cid', hmem, x, ec, hx, hec, hdom⟩
            | some ec0 =>
                dsimp only
                by_cases h1 : dominatesOnTask n x0 e ec0 = true
                · simp only [h1, if_true]
                  exact ih ⟨cid', hmem, x, ec, hx, hec, hdom⟩
                · by_cases h2 : dominatesOnTask x0 n ec0 e = true
                  · simp [h1, h2]
                  · simp only [h1, h2, Bool.false_eq_true, if_false]
                    exact ih ⟨cid', hmem, x, ec, hx, hec, hdom⟩

/-- When the scan reports no domination, no front member dominates the
new candidate. -/
theorem frontScan_not_dominated (ar : Archive) (n : EvaluatedCandidate)
    (e : EvalResult) (f : List String)
    (hf : (frontScan ar n e f).2 = false) :
    ∀ cid ∈ f, ∀ x ec, mapGet ar.candidates cid = some x →
      x.evaluations.find? (fun ev => ev.testCaseId = e.testCaseId) = some ec →
      dominatesOnTask x n ec e = false := by
  intro cid hc x ec hx hec
  by_contra hcon
  rw [Bool.not_eq_false] at hcon
  have := frontScan_isDominated ar n e f ⟨cid, hc, x, ec, hx, hec, hcon⟩
  rw [hf] at this
  exact Bool.false_ne_true this

/-- Every id collected for removal is a dominated front member. -/
theorem frontScan_toRemove (ar : Archive) (n : EvaluatedCandidate)
    (e : EvalResult) (f : List String) :
    ∀ cid ∈ (frontScan ar n e f).1, cid ∈ f ∧ ∃ x ec,
      mapGet ar.candidates cid = some x ∧
      x.evaluations.find? (fun ev => ev.testCaseId = e.testCaseId) = some ec ∧
      dominatesOnTask n x e ec = true := by
  induction f with
  | nil => intro cid h; simp [frontScan] at h
  | cons c0 rest ih =>
      intro cid h
      rw [frontScan] at h
      cases hx0 : mapGet ar.candidates c0 with
      | none =>
          rw [hx0] at h
          obtain ⟨hmem, hrest⟩ := ih cid h
          exact ⟨List.mem_cons_of_mem _ hmem, hrest⟩
      | some x0 =>
          rw [hx0] at h
          dsimp only at h
          cases hec0 : x0.evaluations.find?
              (fun ev => ev.testCaseId = e.testCaseId) with
          | none =>
              rw [hec0] at h
              obtain ⟨hmem, hrest⟩ := ih cid h
              exact ⟨List.mem_cons_of_mem _ hmem, hrest⟩
          | some ec0 =>
              rw [hec0] at h
              dsimp only at h
              by_cases h1 : dominatesOnTask n x0 e ec0 = true
              · simp only [h1, if_true] at h
                rcases List.mem_cons.mp h with rfl | hmem
                · exact ⟨List.mem_cons_self _ _, x0, ec0, hx0, hec0, h1⟩
                · obtain ⟨hm2, hrest⟩ := ih cid hmem
                  exact ⟨List.mem_cons_of_mem _ hm2, hrest⟩
              · by_cases h2 : dominatesOnTask x0 n ec0 e = true
                · simp [h1, h2] at h
                · simp only [h1, h2, Bool.false_eq_true, if_false] at h
                  obtain ⟨hm2, hrest⟩ := ih cid h
                  exact ⟨List.mem_cons_of_mem _ hm2, hrest⟩

/-- When the scan reports no domination, a surviving member is not
dominated by the new candidate. -/
theorem frontScan_survivor (ar : Archive) (n : EvaluatedCandidate)
    (e : EvalResult) (f : List String)
    (hf : (frontScan ar n e f).2 = false) :
    ∀ cid ∈ f, cid ∉ (frontScan ar n e f).1 → ∀ x ec,
      mapGet ar.candidates cid = some x →
      x.evaluations.find? (fun ev => ev.testCaseId = e.testCaseId) = some ec →
      dominatesOnTask n x e ec = false := by
  induction f with
  | nil => intro cid h; simp at h
  | cons c0 rest ih =>
      intro cid hc hnr x ec hx hec
      rw [frontScan] at hf hnr
      rcases List.mem_cons.mp hc with rfl | hmem
      · rw [hx] at hf hnr
        dsimp only at hf hnr
        rw [hec] at hf hnr
        dsimp only at hf hnr
        by_cases h1 : dominatesOnTask n x e ec = true
        · simp only [h1, if_true] at hnr
          exact absurd (List.mem_cons_self _ _) hnr
        · exact Bool.eq_false_iff.mpr h1
      · cases hx0 : mapGet ar.candidates c0 with
        | none =>
            rw [hx0] at hf hnr
            exact ih hf cid hmem hnr x ec hx hec
        | some x0 =>
            rw [hx0] at hf hnr
            dsimp only at hf hnr
            cases hec0 : x0.evaluations.find?
                (fun ev => ev.testCaseId = e.testCaseId) with
            | none =>
                rw [hec0] at hf hnr
                exact ih hf cid hmem hnr x ec hx hec
            | some ec0 =>
                rw [hec0] at hf hnr
                dsimp only at hf hnr
                by_cases h1 : dominatesOnTask n x0 e ec0 = true
                · simp only [h1, if_true] at hf hnr
                  exact ih hf cid hmem (fun hmem2 =>
                    hnr (List.mem_cons_of_mem _ hmem2)) x ec hx hec
                · by_cases h2 : dominatesOnTask x0 n ec0 e = true
                  · simp [h1, h2] at hf
                  · simp only [h1, h2, Bool.false_eq_true, if_false] at hf hnr
                    exact ih hf cid hmem hnr x ec hx hec

/-- When the evaluations carry pairwise distinct task ids, looking up any
one of them by task returns that very evaluation. -/
theorem find_task_self (l : List EvalResult)
    (hnd : (l.map EvalResult.testCaseId).Nodup) (e : EvalResult)
    (he : e ∈ l) :
    l.find? (fun ev => ev.testCaseId = e.testCaseId) = some e := by
  induction l with
  | nil => cases he
  | cons a rest ih =>
      rw [List.map_cons, List.nodup_cons] at hnd
      by_cases hp : a.testCaseId = e.testCaseId
      · rcases List.mem_cons.mp he with rfl | hmem
        · rw [List.find?_cons_of_pos]
          simp
        · exact absurd (hp ▸ List.mem_map.mpr ⟨e, hmem, rfl⟩) hnd.1
      · have he' : e ∈ rest := by
          rcases List.mem_cons.mp he with rfl | hmem
          · exact absurd rfl hp
          · exact hmem
        rw [List.find?_cons_of_neg]
        · exact ih hnd.2 he'
        · simpa using hp

/-- Restatement of `find_task_self` through `evalOn`. -/
theorem evalOn_self (c : EvaluatedCandidate)
    (hnd : (c.evaluations.map EvalResult.testCaseId).Nodup) (e : EvalResult)
    (he : e ∈ c.evaluations) : evalOn c e.testCaseId = some e :=
  find_task_self c.evaluations hnd e he

/-- Front resolution only grows with the candidate pool. -/
theorem frontResolves_mono (cs : List EvaluatedCandidate)
    (n : EvaluatedCandidate) (t : String) (f : List String)
    (h : frontResolves cs t f) : frontResolves (cs ++ [n]) t f := by
  intro cid hcid
  obtain ⟨x, hx, hxid, hxe⟩ := h cid hcid
  exact ⟨x, List.mem_append_left _ hx, hxid, hxe⟩

/-- A mutually non-dominating front over a pool stays mutually
non-dominating when a candidate with a fresh id joins the pool. -/
theorem frontNonDom_extend (cs : List EvaluatedCandidate)
    (n : EvaluatedCandidate) (t : String) (f : List String)
    (hnd : frontNonDom cs t f) (hres : frontResolves cs t f)
    (hfresh : ∀ x ∈ cs, x.id ≠ n.id) : frontNonDom (cs ++ [n]) t f := by
  intro a ha b hb x hx y hy hxa hyb
  have hx' : x ∈ cs := by
    rcases List.mem_append.mp hx with h | h
    · exact h
    · simp only [List.mem_singleton] at h
      subst h
      obtain ⟨z, hz, hzid, -⟩ := hres a ha
      exact absurd (hzid.trans hxa.symm) (hfresh z hz)
  have hy' : y ∈ cs := by
    rcases List.mem_append.mp hy with h | h
    · exact h
    · simp only [List.mem_singleton] at h
      subst h
      obtain ⟨z, hz, hzid, -⟩ := hres b hb
      exact absurd (hzid.trans hyb.symm) (hfresh z hz)
  exact hnd a ha b hb x hx' y hy' hxa hyb

/-- When the archive resolves the pool and a front resolves into the pool,
an archive lookup of a front member returns the pool's candidate with that
id. -/
theorem front_member_resolves (cs : List EvaluatedCandidate) (ar : Archive)
    (t : String) (f : List String) (hres : frontResolves cs t f)
    (har : ∀ x ∈ cs, mapGet ar.candidates x.id = some x)
    (cid : String) (hcid : cid ∈ f) (x : EvaluatedCandidate)
    (hx : mapGet ar.candidates cid = some x) : x ∈ cs ∧ x.id = cid := by
  obtain ⟨y, hy, hyid, -⟩ := hres cid hcid
  have hgy : mapGet ar.candidates cid = some y := hyid ▸ har y hy
  rw [hx] at hgy
  injection hgy with h
  subst h
  exact ⟨hy, hyid⟩

/-- Setting a key preserves distinctness of the key list. -/
theorem mapSet_keys_nodup {α : Type} (m : List (String × α)) (k : String)
    (v : α) (h : (m.map Prod.fst).Nodup) :
    ((mapSet m k v).map Prod.fst).Nodup := by
  rw [mapSet_keys]
  split
  · exact h
  · rename_i hk
    rw [List.nodup_append]
    exact ⟨h, List.nodup_singleton k,
      fun a ha hak => hk ((List.mem_singleton.mp hak) ▸ ha)⟩

/-- A successful map lookup returns the value of some entry of the list. -/
theorem mapGet_mem_values {α : Type} (m : List (String × α)) (k : String)
    (v : α) (h : mapGet m k = some v) : ∃ p ∈ m, p.2 = v := by
  unfold mapGet at h
  cases hf : m.find? (fun p => p.1 = k) with
  | none => rw [hf] at h; cases h
  | some p =>
      rw [hf] at h
      refine ⟨p, List.mem_of_find?_eq_some hf, ?_⟩
      simpa using h

/-- Every value of the map after a `set` is the new value or an old one. -/
theorem mapSet_values {α : Type} (m : List (String × α)) (k : String)
    (v : α) (P : α → Prop) (hm : ∀ p ∈ m, P p.2) (hv : P v) :
    ∀ p ∈ mapSet m k v, P p.2 := by
  unfold mapSet
  split
  · intro p hp
    obtain ⟨q, hq, rfl⟩ := List.mem_map.mp hp
    by_cases hq1 : q.1 = k
    · simpa [hq1] using hv
    · simpa [hq1] using hm q hq
  · intro p hp
    rcases List.mem_append.mp hp with h | h
    · exact hm p h
    · simp only [List.mem_singleton] at h
      subst h
      exact hv

/-- The task-front keys of the freshly created Pareto index are distinct. -/
theorem createPerTaskPareto_keys_nodup (tcs : List TestCase) :
    (((createPerTaskPareto tcs).taskFronts).map Prod.fst).Nodup := by
  unfold createPerTaskPareto
  suffices h : ∀ m : List (String × List String), (m.map Prod.fst).Nodup →
      ((tcs.foldl (fun m tc => mapSet m tc.id []) m).map Prod.fst).Nodup by
    exact h [] (by simp)
  induction tcs with
  | nil => intro m hm; simpa using hm
  | cons tc rest ih =>
      intro m hm
      exact ih _ (mapSet_keys_nodup m tc.id [] hm)

/-- Every value written by the front-creating fold is the empty front. -/
theorem foldl_empty_front_values (tcs : List TestCase)
    (m : List (String × List String))
    (hm : ∀ p ∈ m, p.2 = ([] : List String)) :
    ∀ p ∈ tcs.foldl (fun m tc => mapSet m tc.id []) m,
      p.2 = ([] : List String) := by
  induction tcs generalizing m with
  | nil => simpa using hm
  | cons tc rest ih =>
      exact ih _ (mapSet_values m tc.id []
        (fun v => v = ([] : List String)) hm rfl)

/-- Every front of the freshly created Pareto index is empty. -/
theorem createPerTaskPareto_front_empty (tcs : List TestCase) (t : String)
    (f : List String)
    (h : mapGet (createPerTaskPareto tcs).taskFronts t = some f) : f = [] := by
  obtain ⟨p, hp, hpv⟩ := mapGet_mem_values _ _ _ h
  exact hpv ▸ foldl_empty_front_values tcs [] (by simp) p hp

/-- The archive resolves the inserted candidate to itself. -/
theorem addToArchive_get_self (ar : Archive) (c : EvaluatedCandidate)
    (now : ℕ) (pid : Option String) :
    mapGet (addToArchive ar c now pid).candidates c.id = some c :=
  mapGet_mapSet_self ar.candidates c.id c

/-- The archive's other entries are untouched by an insertion. -/
theorem addToArchive_get_ne (ar : Archive) (c : EvaluatedCandidate)
    (now : ℕ) (pid : Option String) (k : String) (h : k ≠ c.id) :
    mapGet (addToArchive ar c now pid).candidates k =
      mapGet ar.candidates k :=
  mapGet_mapSet_ne ar.candidates c.id k c h

/-- One task update by a candidate the invariant already accounts for:
the task fronts are unchanged and the candidate's dominance count grows by
one exactly when it sits on that task's front. -/
theorem reinsert_task_step (cs : List EvaluatedCandidate) (ar : Archive)
    (c : EvaluatedCandidate) (F : List (String × List String))
    (D : List (String × ℤ))
    (hkeys : (F.map Prod.fst).Nodup)
    (har : ∀ x ∈ cs, mapGet ar.candidates x.id = some x)
    (hfronts : ∀ t f, mapGet F t = some f →
      f.Nodup ∧ frontResolves cs t f ∧ frontNonDom cs t f)
    (hcov : ∀ t f, mapGet F t = some f → (evalOn c t).isSome = true →
      c.id ∈ f ∨ ∃ d ∈ cs, d.id ∈ f ∧ DomOn d c t)
    (hc : c ∈ cs)
    (e : EvalResult) (he : evalOn c e.testCaseId = some e) :
    updatePerTaskParetoTask ar c ⟨F, D⟩ e =
      ⟨F, match mapGet F e.testCaseId with
          | some f => if c.id ∈ f
              then mapSet D c.id (((mapGet D c.id).getD 0) + 1) else D
          | none => D⟩ := by
  cases hg : mapGet F e.testCaseId with
  | none => simp only [updatePerTaskParetoTask, hg]
  | some f =>
      by_cases hcf : c.id ∈ f
      · have hscan : frontScan ar c e f = ([], false) := by
          apply frontScan_no_interaction
          intro cid hcid x hx ec hec
          obtain ⟨hxin, hxid⟩ := front_member_resolves cs ar e.testCaseId f
            (hfronts _ _ hg).2.1 har cid hcid x hx
          have hnd := (hfronts _ _ hg).2.2
          constructor
          · by_contra hcon
            rw [Bool.not_eq_false] at hcon
            exact hnd c.id hcf cid hcid c hc x hxin rfl hxid
              ⟨e, ec, he, hec, hcon⟩
          · by_contra hcon
            rw [Bool.not_eq_false] at hcon
            exact hnd cid hcid c.id hcf x hxin c hc hxid rfl
              ⟨ec, e, hec, he, hcon⟩
        simp only [updatePerTaskParetoTask, hg, hscan, List.foldl_nil,
          setAdd, hcf, if_true, if_false]
        rw [mapSet_self_of_get F e.testCaseId f hkeys hg]
        simp
      · have hisdom : (frontScan ar c e f).2 = true := by
          have hsome : (evalOn c e.testCaseId).isSome = true := by
            rw [he]; rfl
          rcases hcov _ _ hg hsome with hin | ⟨d, hd, hdf, hdom⟩
          · exact absurd hin hcf
          · obtain ⟨ea, eb, hea, heb, hdt⟩ := hdom
            rw [he] at heb
            injection heb with heb'
            subst heb'
            exact frontScan_isDominated ar c e f
              ⟨d.id, hdf, d, ea, har d hd, hea, hdt⟩
        simp only [updatePerTaskParetoTask, hg, hisdom, if_true, hcf,
          if_false]

/-- Folding the task update of an already-accounted-for candidate over a
list of its own evaluations keeps every front and bumps the candidate's
dominance count by the number of hit fronts. -/
theorem reinsert_fold (cs : List EvaluatedCandidate) (ar : Archive)
    (c : EvaluatedCandidate) (F : List (String × List String))
    (hkeys : (F.map Prod.fst).Nodup)
    (har : ∀ x ∈ cs, mapGet ar.candidates x.id = some x)
    (hfronts : ∀ t f, mapGet F t = some f →
      f.Nodup ∧ frontResolves cs t f ∧ frontNonDom cs t f)
    (hcov : ∀ t f, mapGet F t = some f → (evalOn c t).isSome = true →
      c.id ∈ f ∨ ∃ d ∈ cs, d.id ∈ f ∧ DomOn d c t)
    (hc : c ∈ cs)
    (l : List EvalResult) (hl : ∀ e ∈ l, evalOn c e.testCaseId = some e)
    (D : List (String × ℤ)) :
    l.foldl (updatePerTaskParetoTask ar c) ⟨F, D⟩ =
      ⟨F, bumped D c.id (frontHits F c l)⟩ := by
  induction l generalizing D with
  | nil => simp [bumped, frontHits]
  | cons e rest ih =>
      rw [List.foldl_cons, reinsert_task_step cs ar c F D hkeys har hfronts
        hcov hc e (hl e (List.mem_cons_self _ _))]
      cases hg : mapGet F e.testCaseId with
      | none =>
          dsimp only
          have hfh : frontHits F c (e :: rest) = frontHits F c rest := by
            unfold frontHits
            rw [List.filter_cons]
            simp [hg]
          rw [ih (fun e' he' => hl e' (List.mem_cons_of_mem _ he')), hfh]
      | some f =>
          dsimp only
          by_cases hcf : c.id ∈ f
          · rw [if_pos hcf,
              ih (fun e' he' => hl e' (List.mem_cons_of_mem _ he'))]
            have hfh : frontHits F c (e :: rest) = frontHits F c rest + 1 := by
              unfold frontHits
              rw [List.filter_cons]
              simp [hg, hcf]
            rw [hfh]
            have hb : bumped (mapSet D c.id (((mapGet D c.id).getD 0) + 1))
                c.id (frontHits F c rest) =
                bumped D c.id (frontHits F c rest + 1) := by
              unfold bumped
              by_cases hK : frontHits F c rest = 0
              · rw [hK]
                norm_num
              · rw [if_neg hK, if_neg (Nat.succ_ne_zero _),
                  mapGet_mapSet_self, mapSet_mapSet_self]
                congr 1
                simp only [Option.getD_some]
                push_cast
                ring
            rw [hb]
          · rw [if_neg hcf,
              ih (fun e' he' => hl e' (List.mem_cons_of_mem _ he'))]
            have hfh : frontHits F c (e :: rest) = frontHits F c rest := by
              unfold frontHits
              rw [List.filter_cons]
              simp [hg, hcf]
            rw [hfh]

/-- When the scan reports a domination, some front member the archive
resolves dominates the new candidate. -/
theorem frontScan_finds_dominator (ar : Archive) (n : EvaluatedCandidate)
    (e : EvalResult) (f : List String)
    (hf : (frontScan ar n e f).2 = true) :
    ∃ cid ∈ f, ∃ x ec, mapGet ar.candidates cid = some x ∧
      x.evaluations.find? (fun ev => ev.testCaseId = e.testCaseId) = some ec ∧
      dominatesOnTask x n ec e = true := by
  induction f with
  | nil => simp [frontScan] at hf
  | cons c0 rest ih =>
      rw [frontScan] at hf
      cases hx0 : mapGet ar.candidates c0 with
      | none =>
          rw [hx0] at hf
          obtain ⟨cid, hcid, hrest⟩ := ih hf
          exact ⟨cid, List.mem_cons_of_mem _ hcid, hrest⟩
      | some x0 =>
          rw [hx0] at hf
          dsimp only at hf
          cases hec0 : x0.evaluations.find?
              (fun ev => ev.testCaseId = e.testCaseId) with
          | none =>
              rw [hec0] at hf
              obtain ⟨cid, hcid, hrest⟩ := ih hf
              exact ⟨cid, List.mem_cons_of_mem _ hcid, hrest⟩
          | some ec0 =>
              rw [hec0] at hf
              dsimp only at hf
              by_cases h1 : dominatesOnTask n x0 e ec0 = true
              · simp only [h1, if_true] at hf
                obtain ⟨cid, hcid, hrest⟩ := ih hf
                exact ⟨cid, List.mem_cons_of_mem _ hcid, hrest⟩
              · by_cases h2 : dominatesOnTask x0 n ec0 e = true
                · exact ⟨c0, List.mem_cons_self _ _, x0, ec0, hx0, hec0, h2⟩
                · simp only [h1, h2, Bool.false_eq_true, if_false] at hf
                  obtain ⟨cid, hcid, hrest⟩ := ih hf
                  exact ⟨cid, List.mem_cons_of_mem _ hcid, hrest⟩

/-- A task update is the identity when the task has no front. -/
theorem updateTask_none (ar : Archive) (n : EvaluatedCandidate)
    (p : PerTaskPareto) (e : EvalResult)
    (hg : mapGet p.taskFronts e.testCaseId = none) :
    updatePerTaskParetoTask ar n p e = p := by
  simp only [updatePerTaskParetoTask, hg]

/-- A task update is the identity when the new candidate is dominated on
the task. -/
theorem updateTask_dominated (ar : Archive) (n : EvaluatedCandidate)
    (p : PerTaskPareto) (e : EvalResult) (f : List String)
    (hg : mapGet p.taskFronts e.testCaseId = some f)
    (hs : (frontScan ar n e f).2 = true) :
    updatePerTaskParetoTask ar n p e = p := by
  simp only [updatePerTaskParetoTask, hg, hs, if_true]

/-- When the new candidate is not dominated, the task update replaces the
task's front by the survivors plus the new candidate. -/
theorem updateTask_fronts (ar : Archive) (n : EvaluatedCandidate)
    (p : PerTaskPareto) (e : EvalResult) (f : List String)
    (hg : mapGet p.taskFronts e.testCaseId = some f)
    (hs : (frontScan ar n e f).2 = false) :
    (updatePerTaskParetoTask ar n p e).taskFronts =
      mapSet p.taskFronts e.testCaseId
        (setAdd ((frontScan ar n e f).1.foldl setDelete f) n.id) := by
  simp only [updatePerTaskParetoTask, hg, hs, Bool.false_eq_true, if_false]

/-- Folding the task updates of a fresh candidate over its evaluations
preserves the front invariants, keeps the old candidates covered, and
covers the new candidate on every visited task. -/
theorem insertFold_inv (cs : List EvaluatedCandidate) (ar' : Archive)
    (n : EvaluatedCandidate)
    (har : ∀ x ∈ cs ++ [n], mapGet ar'.candidates x.id = some x)
    (hfresh : ∀ x ∈ cs, x.id ≠ n.id)
    (hevn : ∀ e ∈ n.evaluations, evalOn n e.testCaseId = some e) :
    ∀ l : List EvalResult, (∀ e ∈ l, e ∈ n.evaluations) →
    (l.map EvalResult.testCaseId).Nodup →
    ∀ p : PerTaskPareto,
    (p.taskFronts.map Prod.fst).Nodup →
    (∀ t f, mapGet p.taskFronts t = some f →
      f.Nodup ∧ frontResolves (cs ++ [n]) t f ∧ frontNonDom (cs ++ [n]) t f) →
    (∀ x ∈ cs, coveredBy (cs ++ [n]) p x) →
    (∀ t f, mapGet p.taskFronts t = some f → (evalOn n t).isSome = true →
      (∃ e ∈ l, e.testCaseId = t) ∨ n.id ∈ f ∨
        ∃ d ∈ cs ++ [n], d.id ∈ f ∧ DomOn d n t) →
    (∀ e ∈ l, ∀ f, mapGet p.taskFronts e.testCaseId = some f → n.id ∉ f) →
    (((l.foldl (updatePerTaskParetoTask ar' n) p).taskFronts.map
        Prod.fst).Nodup) ∧
    (∀ t f,
      mapGet (l.foldl (updatePerTaskParetoTask ar' n) p).taskFronts t
          = some f →
      f.Nodup ∧ frontResolves (cs ++ [n]) t f ∧ frontNonDom (cs ++ [n]) t f) ∧
    (∀ x ∈ cs,
      coveredBy (cs ++ [n]) (l.foldl (updatePerTaskParetoTask ar' n) p) x) ∧
    (∀ t f,
      mapGet (l.foldl (updatePerTaskParetoTask ar' n) p).taskFronts t
          = some f →
      (evalOn n t).isSome = true →
      n.id ∈ f ∨ ∃ d ∈ cs ++ [n], d.id ∈ f ∧ DomOn d n t) := by
  intro l
  induction l with
  | nil =>
      intro _ _ p hkeys hfr hcov hcn _
      refine ⟨hkeys, hfr, hcov, ?_⟩
      intro t f hq hsome
      rcases hcn t f hq hsome with ⟨e', he', -⟩ | h | h
      · exact absurd he' (List.not_mem_nil e')
      · exact Or.inl h
      · exact Or.inr h
  | cons e rest ih =>
      intro hl hlt p hkeys hfr hcov hcn hnotin
      have hen : e ∈ n.evaluations := hl e (List.mem_cons_self _ _)
      have heval : evalOn n e.testCaseId = some e := hevn e hen
      rw [List.map_cons, List.nodup_cons] at hlt
      rw [List.foldl_cons]
      cases hg : mapGet p.taskFronts e.testCaseId with
      | none =>
          rw [updateTask_none ar' n p e hg]
          refine ih (fun e' he' => hl e' (List.mem_cons_of_mem _ he'))
            hlt.2 p hkeys hfr hcov ?_
            (fun e' he' => hnotin e' (List.mem_cons_of_mem _ he'))
          intro t f hq hsome
          rcases hcn t f hq hsome with ⟨e', he', htc⟩ | h | h
          · rcases List.mem_cons.mp he' with rfl | hmem
            · rw [← htc, hg] at hq
              simp at hq
            · exact Or.inl ⟨e', hmem, htc⟩
          · exact Or.inr (Or.inl h)
          · exact Or.inr (Or.inr h)
      | some f =>
          have hff := hfr _ _ hg
          by_cases hs2 : (frontScan ar' n e f).2 = true
          · rw [updateTask_dominated ar' n p e f hg hs2]
            refine ih (fun e' he' => hl e' (List.mem_cons_of_mem _ he'))
              hlt.2 p hkeys hfr hcov ?_
              (fun e' he' => hnotin e' (List.mem_cons_of_mem _ he'))
            intro t f' hq hsome
            rcases hcn t f' hq hsome with ⟨e', he', htc⟩ | h | h
            · rcases List.mem_cons.mp he' with he2 | hmem
              · rw [he2] at htc
                subst htc
                rw [hg] at hq
                injection hq with hq'
                subst hq'
                obtain ⟨cid, hcid, x, ec, hx, hec, hdom⟩ :=
                  frontScan_finds_dominator ar' n e f hs2
                obtain ⟨hxin, hxid⟩ := front_member_resolves (cs ++ [n]) ar'
                  e.testCaseId f hff.2.1 har cid hcid x hx
                exact Or.inr (Or.inr ⟨x, hxin, hxid ▸ hcid, ec, e, hec,
                  heval, hdom⟩)
              · exact Or.inl ⟨e', hmem, htc⟩
            · exact Or.inr (Or.inl h)
            · exact Or.inr (Or.inr h)
          · rw [Bool.not_eq_true] at hs2
            have htf := updateTask_fronts ar' n p e f hg hs2
            set F2 := setAdd ((frontScan ar' n e f).1.foldl setDelete f)
              n.id with hF2
            have hmemF2 : ∀ a, a ∈ F2 ↔
                (a ∈ f ∧ a ∉ (frontScan ar' n e f).1) ∨ a = n.id := by
              intro a
              rw [hF2, setAdd_mem, mem_foldl_setDelete]
            have hnidf : n.id ∉ f := hnotin e (List.mem_cons_self _ _) f hg
            have hkeys' : ((updatePerTaskParetoTask ar' n p
                e).taskFronts.map Prod.fst).Nodup := by
              rw [htf]
              exact mapSet_keys_nodup _ _ _ hkeys
            have hget' : ∀ t, t ≠ e.testCaseId →
                mapGet (updatePerTaskParetoTask ar' n p e).taskFronts t =
                  mapGet p.taskFronts t := by
              intro t ht
              rw [htf]
              exact mapGet_mapSet_ne _ _ _ _ ht
            have hgetT : mapGet (updatePerTaskParetoTask ar' n p
                e).taskFronts e.testCaseId = some F2 := by
              rw [htf]
              exact mapGet_mapSet_self _ _ _
            have hnodup2 : F2.Nodup := by
              rw [hF2]
              exact setAdd_nodup _ _ (nodup_foldl_setDelete _ _ hff.1)
            have hresolve2 : frontResolves (cs ++ [n]) e.testCaseId F2 := by
              intro cid hcid
              rcases (hmemF2 cid).mp hcid with ⟨hcf, -⟩ | rfl
              · exact hff.2.1 cid hcf
              · exact ⟨n, List.mem_append_right _ (List.mem_singleton.mpr
                  rfl), rfl, by rw [heval]; rfl⟩
            have hnonDom2 : frontNonDom (cs ++ [n]) e.testCaseId F2 := by
              intro a ha b hb x hx y hy hxa hyb hdom
              rcases (hmemF2 a).mp ha with ⟨haf, hanr⟩ | ha'
              · rcases (hmemF2 b).mp hb with ⟨hbf, hbnr⟩ | hb'
                · exact hff.2.2 a haf b hbf x hx y hy hxa hyb hdom
                · have hyn : y = n := by
                    rcases List.mem_append.mp hy with h | h
                    · exact absurd (hyb.trans hb') (hfresh y h)
                    · exact List.mem_singleton.mp h
                  rw [hyn] at hdom
                  obtain ⟨ea, eb, hea, heb, hd⟩ := hdom
                  have heb' : e = eb := by
                    rw [heval] at heb
                    exact Option.some.inj heb
                  have hxla : mapGet ar'.candidates a = some x :=
                    hxa ▸ har x hx
                  have hnd := frontScan_not_dominated ar' n e f hs2 a haf
                    x ea hxla hea
                  rw [← heb'] at hd
                  rw [hnd] at hd
                  exact Bool.false_ne_true hd
              · have hxn : x = n := by
                  rcases List.mem_append.mp hx with h | h
                  · exact absurd (hxa.trans ha') (hfresh x h)
                  · exact List.mem_singleton.mp h
                rw [hxn] at hdom
                rcases (hmemF2 b).mp hb with ⟨hbf, hbnr⟩ | hb'
                · obtain ⟨ea, eb, hea, heb, hd⟩ := hdom
                  have hea' : e = ea := by
                    rw [heval] at hea
                    exact Option.some.inj hea
                  have hylb : mapGet ar'.candidates b = some y :=
                    hyb ▸ har y hy
                  have hnd := frontScan_survivor ar' n e f hs2 b hbf hbnr
                    y eb hylb heb
                  rw [← hea'] at hd
                  rw [hnd] at hd
                  exact Bool.false_ne_true hd
                · have hyn : y = n := by
                    rcases List.mem_append.mp hy with h | h
                    · exact absurd (hyb.trans hb') (hfresh y h)
                    · exact List.mem_singleton.mp h
                  rw [hyn] at hdom
                  obtain ⟨ea, eb, hea, heb, hd⟩ := hdom
                  have hea' : e = ea := by
                    rw [heval] at hea
                    exact Option.some.inj hea
                  have heb' : e = eb := by
                    rw [heval] at heb
                    exact Option.some.inj heb
                  rw [← hea', ← heb', dominatesOnTask_irrefl n e] at hd
                  exact Bool.false_ne_true hd
            have hfr' : ∀ t f',
                mapGet (updatePerTaskParetoTask ar' n p e).taskFronts t
                    = some f' →
                f'.Nodup ∧ frontResolves (cs ++ [n]) t f' ∧
                  frontNonDom (cs ++ [n]) t f' := by
              intro t f' hq
              by_cases ht : t = e.testCaseId
              · subst ht
                rw [hgetT] at hq
                injection hq with hq'
                subst hq'
                exact ⟨hnodup2, hresolve2, hnonDom2⟩
              · rw [hget' t ht] at hq
                exact hfr t f' hq
            have hcov' : ∀ x ∈ cs,
                coveredBy (cs ++ [n]) (updatePerTaskParetoTask ar' n p e)
                  x := by
              intro x hxcs t f' hq hsome
              by_cases ht : t = e.testCaseId
              · subst ht
                rw [hgetT] at hq
                injection hq with hq'
                subst hq'
                rcases hcov x hxcs e.testCaseId f hg hsome with
                  hxf | ⟨d, hd, hdf, hdom⟩
                · by_cases hxr : x.id ∈ (frontScan ar' n e f).1
                  · obtain ⟨-, x', ec, hx', hec, hdomx⟩ :=
                      frontScan_toRemove ar' n e f x.id hxr
                    have harx := har x (List.mem_append_left _ hxcs)
                    rw [harx] at hx'
                    injection hx' with hx''
                    subst hx''
                    exact Or.inr ⟨n, List.mem_append_right _
                      (List.mem_singleton.mpr rfl),
                      (hmemF2 n.id).mpr (Or.inr rfl), e, ec, heval, hec,
                      hdomx⟩
                  · exact Or.inl ((hmemF2 x.id).mpr (Or.inl ⟨hxf, hxr⟩))
                · by_cases hdr : d.id ∈ (frontScan ar' n e f).1
                  · obtain ⟨-, d', ec, hd', hec, hdomd⟩ :=
                      frontScan_toRemove ar' n e f d.id hdr
                    have hard := har d hd
                    rw [hard] at hd'
                    injection hd' with hd''
                    subst hd''
                    have hnd : DomOn n d e.testCaseId :=
                      ⟨e, ec, heval, hec, hdomd⟩
                    exact Or.inr ⟨n, List.mem_append_right _
                      (List.mem_singleton.mpr rfl),
                      (hmemF2 n.id).mpr (Or.inr rfl),
                      DomOn_trans n d x e.testCaseId hnd hdom⟩
                  · exact Or.inr ⟨d, hd,
                      (hmemF2 d.id).mpr (Or.inl ⟨hdf, hdr⟩), hdom⟩
              · rw [hget' t ht] at hq
                exact hcov x hxcs t f' hq hsome
            have hcn' : ∀ t f',
                mapGet (updatePerTaskParetoTask ar' n p e).taskFronts t
                    = some f' →
                (evalOn n t).isSome = true →
                (∃ e' ∈ rest, e'.testCaseId = t) ∨ n.id ∈ f' ∨
                  ∃ d ∈ cs ++ [n], d.id ∈ f' ∧ DomOn d n t := by
              intro t f' hq hsome
              by_cases ht : t = e.testCaseId
              · subst ht
                rw [hgetT] at hq
                injection hq with hq'
                subst hq'
                exact Or.inr (Or.inl ((hmemF2 n.id).mpr (Or.inr rfl)))
              · rw [hget' t ht] at hq
                rcases hcn t f' hq hsome with ⟨e', he', htc⟩ | h | h
                · rcases List.mem_cons.mp he' with rfl | hmem
                  · exact absurd htc.symm ht
                  · exact Or.inl ⟨e', hmem, htc⟩
                · exact Or.inr (Or.inl h)
                · exact Or.inr (Or.inr h)
            have hnotin' : ∀ e'' ∈ rest, ∀ f',
                mapGet (updatePerTaskParetoTask ar' n p e).taskFronts
                    e''.testCaseId = some f' → n.id ∉ f' := by
              intro e'' he'' f' hq
              have ht : e''.testCaseId ≠ e.testCaseId := by
                intro hc
                exact hlt.1 (hc ▸ List.mem_map.mpr ⟨e'', he'', rfl⟩)
              rw [hget' _ ht] at hq
              exact hnotin e'' (List.mem_cons_of_mem _ he'') f' hq
            exact ih (fun e' he' => hl e' (List.mem_cons_of_mem _ he'))
              hlt.2 _ hkeys' hfr' hcov' hcn' hnotin'

/-- One archive-then-Pareto insertion of a fresh candidate preserves the
reachability invariant. -/
theorem paretoStep_inv (cs : List EvaluatedCandidate)
    (n : EvaluatedCandidate) (ar : Archive) (p : PerTaskPareto)
    (hinv : ParetoInv cs ar p)
    (hfresh : ∀ x ∈ cs, x.id ≠ n.id)
    (hndn : (n.evaluations.map EvalResult.testCaseId).Nodup) :
    ParetoInv (cs ++ [n]) (addToArchive ar n 0 none)
      (updatePerTaskPareto p n (addToArchive ar n 0 none)) := by
  obtain ⟨hkeys, hres, hfr, hcov⟩ := hinv
  have hevn : ∀ e ∈ n.evaluations, evalOn n e.testCaseId = some e :=
    evalOn_self n hndn
  have har' : ∀ x ∈ cs ++ [n],
      mapGet (addToArchive ar n 0 none).candidates x.id = some x := by
    intro x hx
    rcases List.mem_append.mp hx with h | h
    · rw [addToArchive_get_ne ar n 0 none x.id (hfresh x h)]
      exact hres x h
    · rw [List.mem_singleton.mp h]
      exact addToArchive_get_self ar n 0 none
  have hfr2 : ∀ t f, mapGet p.taskFronts t = some f →
      f.Nodup ∧ frontResolves (cs ++ [n]) t f ∧
        frontNonDom (cs ++ [n]) t f := by
    intro t f hq
    obtain ⟨h1, h2, h3⟩ := hfr t f hq
    exact ⟨h1, frontResolves_mono cs n t f h2,
      frontNonDom_extend cs n t f h3 h2 hfresh⟩
  have hcov2 : ∀ x ∈ cs, coveredBy (cs ++ [n]) p x := by
    intro x hx t f hq hsome
    rcases hcov x hx t f hq hsome with h | ⟨d, hd, hdf, hdom⟩
    · exact Or.inl h
    · exact Or.inr ⟨d, List.mem_append_left _ hd, hdf, hdom⟩
  have hnotin0 : ∀ e ∈ n.evaluations, ∀ f,
      mapGet p.taskFronts e.testCaseId = some f → n.id ∉ f := by
    intro e _ f hq hmem
    obtain ⟨-, h2, -⟩ := hfr _ _ hq
    obtain ⟨z, hz, hzid, -⟩ := h2 n.id hmem
    exact hfresh z hz hzid
  have hcn0 : ∀ t f, mapGet p.taskFronts t = some f →
      (evalOn n t).isSome = true →
      (∃ e ∈ n.evaluations, e.testCaseId = t) ∨ n.id ∈ f ∨
        ∃ d ∈ cs ++ [n], d.id ∈ f ∧ DomOn d n t := by
    intro t f _ hsome
    cases he : evalOn n t with
    | none =>
        rw [he] at hsome
        simp at hsome
    | some e0 =>
        have he0 : e0 ∈ n.evaluations := List.mem_of_find?_eq_some he
        have htc : e0.testCaseId = t := by
          have := List.find?_some he
          simpa using this
        exact Or.inl ⟨e0, he0, htc⟩
  obtain ⟨m1, m2, m3, m4⟩ := insertFold_inv cs (addToArchive ar n 0 none) n
    har' hfresh hevn n.evaluations (fun _ he => he) hndn p hkeys hfr2
    hcov2 hcn0 hnotin0
  refine ⟨m1, har', m2, ?_⟩
  intro x hx
  rcases List.mem_append.mp hx with h | h
  · exact m3 x h
  · rw [List.mem_singleton.mp h]
    intro t f hq hsome
    exact m4 t f hq hsome

/-- The archive/Pareto pair reached by any run of insertions with fresh
ids and per-candidate distinct evaluation tasks satisfies the
reachability invariant. -/
theorem paretoRun_inv (tcs : List TestCase) :
    ∀ cs : List EvaluatedCandidate,
    (cs.map (fun c => c.id)).Nodup →
    (∀ c ∈ cs, (c.evaluations.map EvalResult.testCaseId).Nodup) →
    ParetoInv cs (paretoRun tcs cs).1 (paretoRun tcs cs).2 := by
  intro cs
  induction cs using List.reverseRecOn with
  | nil =>
      intro _ _
      refine ⟨createPerTaskPareto_keys_nodup tcs, ?_, ?_, ?_⟩
      · intro x hx
        cases hx
      · intro t f hq
        have hf0 := createPerTaskPareto_front_empty tcs t f hq
        subst hf0
        exact ⟨List.nodup_nil,
          fun cid hcid => absurd hcid (List.not_mem_nil _),
          fun a ha => absurd ha (List.not_mem_nil _)⟩
      · intro x hx
        cases hx
  | append_singleton cs n ih =>
      intro hids hnd
      rw [List.map_append, List.nodup_append] at hids
      have hfresh : ∀ x ∈ cs, x.id ≠ n.id := by
        intro x hx hc
        exact hids.2.2 (List.mem_map.mpr ⟨x, hx, rfl⟩) (by simp [hc])
      have hrun : paretoRun tcs (cs ++ [n]) =
          paretoFoldStep (paretoRun tcs cs) n := by
        unfold paretoRun
        rw [List.foldl_append]
        rfl
      rw [hrun]
      exact paretoStep_inv cs n (paretoRun tcs cs).1 (paretoRun tcs cs).2
        (ih hids.1 (fun c hc => hnd c (List.mem_append_left _ hc)))
        hfresh (hnd n (List.mem_append_right _ (List.mem_singleton.mpr rfl)))

/-- C6 (corrected): re-running the Pareto update with a candidate already
inserted by a reachable run leaves every task front unchanged, but bumps
the candidate's dominance count by the number of task fronts that contain
it (leaving all other counts unchanged); it is not a no-op on the counts
whenever the candidate sits on at least one front. -/
theorem pareto_reinsert_bumps_count (tcs : List TestCase)
    (cs : List EvaluatedCandidate) (c : EvaluatedCandidate)
    (hids : (cs.map (fun x => x.id)).Nodup)
    (hnd : ∀ x ∈ cs, (x.evaluations.map EvalResult.testCaseId).Nodup)
    (hc : c ∈ cs) :
    updatePerTaskPareto (paretoRun tcs cs).2 c (paretoRun tcs cs).1 =
      ⟨(paretoRun tcs cs).2.taskFronts,
        bumped (paretoRun tcs cs).2.dominanceCount c.id
          (reinsertBump (paretoRun tcs cs).2 c)⟩ := by
  obtain ⟨hkeys, hres, hfr, hcov⟩ := paretoRun_inv tcs cs hids hnd
  have hevc : ∀ e ∈ c.evaluations, evalOn c e.testCaseId = some e :=
    evalOn_self c (hnd c hc)
  exact reinsert_fold cs (paretoRun tcs cs).1 c
    (paretoRun tcs cs).2.taskFronts hkeys hres hfr (hcov c hc) hc
    c.evaluations hevc (paretoRun tcs cs).2.dominanceCount

/-- C6 witness: on the concrete one-candidate run the re-insertion keeps
the single front and bumps the candidate's dominance count by one. -/
theorem pareto_reinsert_bumps_count_witness :
    (([cReFix].map (fun x => x.id)).Nodup) ∧
    (∀ x ∈ [cReFix], (x.evaluations.map EvalResult.testCaseId).Nodup) ∧
    cReFix ∈ [cReFix] ∧
    updatePerTaskPareto (paretoRun [tcParis] [cReFix]).2 cReFix
        (paretoRun [tcParis] [cReFix]).1 =
      ⟨(paretoRun [tcParis] [cReFix]).2.taskFronts,
        bumped (paretoRun [tcParis] [cReFix]).2.dominanceCount cReFix.id
          (reinsertBump (paretoRun [tcParis] [cReFix]).2 cReFix)⟩ :=
  ⟨by decide, by decide, by decide,
    pareto_reinsert_bumps_count [tcParis] [cReFix] cReFix (by decide)
      (by decide) (by decide)⟩

/-- C6 counterexample: re-inserting the candidate of a one-candidate run
changes the Pareto index (its dominance count rises from 1 to 2), so
re-insertion is not a no-op on the final state. -/
theorem pareto_reinsert_counterexample :
    updatePerTaskPareto (paretoRun [tcParis] [cReFix]).2 cReFix
        (paretoRun [tcParis] [cReFix]).1 ≠
      (paretoRun [tcParis] [cReFix]).2 := by
  decide
